import Mathlib

/-!
Verification of the dependency-analysis engine (`src/service.ts`) of the
`dependency-cracker` repository.

The TypeScript service is shallowly embedded here:

* JavaScript `Map`/`Set` objects (insertion-ordered) are embedded as
  association lists / duplicate-free lists with append-at-end insertion
  (`cacheSet`, `mapAdd`, `sadd`, `sunion`).
* The Node.js `path` module (an external collaborator of the repository)
  is modelled by `dirname`, `resolvePath`, `joinPath`, `extname` for
  absolute, `/`-separated paths.
* The file system is a value (`FSys`): a list of regular files together
  with their parsed syntax trees, plus further existing paths.  The
  external TypeScript parser is out of scope, so a file's content *is*
  its syntax tree (`AST`), a closed variant of exactly the declaration
  shapes that `visitNode` dispatches on.
* The mutable engine state (`depsGraph`, `exportCache`, `analyzedFiles`)
  is threaded explicitly (`Engine`).  `alog` instruments the state with
  one entry per run of `analyzeFile`, i.e. per extraction pass; the
  source has no such field, it only serves to observe how often the
  extraction pass runs on a file.
* The mutually recursive stateful functions
  (`analyzeFile`/`getFileExports`/`visitNode` and
  `analyzeFileRecursive`, `findAllFinalDependencies`) are embedded with
  a fuel parameter that every call decrements; `none` means the fuel ran
  out.  With enough fuel the fueled function computes exactly the
  TypeScript run; a run that returns `none` for every fuel is a run that
  does not terminate.
* `traceSymbolSource` is embedded fuel-free: its visited set grows along
  every recursive call, which bounds the recursion by the graph's keys.
-/

/-! ## Model of the Node.js `path` module (external collaborator).

String primitives (splitting, prefix test, lower-casing) are implemented
on character lists so that every path computation evaluates inside the
kernel. -/

/-- Split a character list on a separator character. -/
def splitOnCharAux (sep : Char) : List Char → List Char → List (List Char)
  | [], acc => [acc.reverse]
  | c :: cs, acc =>
      if c == sep then acc.reverse :: splitOnCharAux sep cs []
      else splitOnCharAux sep cs (c :: acc)

/-- Split a string on a separator character (as `String.splitOn` for a
one-character separator). -/
def splitStr (s : String) (sep : Char) : List String :=
  (splitOnCharAux sep s.data []).map (fun cs => ⟨cs⟩)

/-- Join strings with a separator character (as `String.intercalate`). -/
def joinSep (sep : Char) : List String → String
  | [] => ""
  | [x] => x
  | x :: rest => x ++ (⟨[sep]⟩ : String) ++ joinSep sep rest

/-- Prefix test on character lists. -/
def leadsWith : List Char → List Char → Bool
  | [], _ => true
  | _ :: _, [] => false
  | p :: ps, c :: cs => p == c && leadsWith ps cs

/-- String prefix test (as `String.startsWith`). -/
def strLeads (pre s : String) : Bool := leadsWith pre.data s.data

/-- ASCII lower-casing of one character. -/
def lowerChar (c : Char) : Char :=
  if 'A' ≤ c ∧ c ≤ 'Z' then Char.ofNat (c.toNat + 32) else c

/-- ASCII lower-casing of a string (as `String.toLowerCase` for the
extension alphabets in use). -/
def lowerStr (s : String) : String := ⟨s.data.map lowerChar⟩

/-- Last `/`-separated component of a path (`path.basename`). -/
def basenameOf (s : String) : String :=
  (splitStr s '/').getLastD s

/-- Model of `path.extname`: the suffix of the basename from its last dot,
`""` when the basename has no dot or only a leading dot. -/
def extname (s : String) : String :=
  let b := basenameOf s
  let parts := splitStr b '.'
  match parts with
  | [] => ""
  | [_] => ""
  | first :: rest =>
      if first = "" ∧ rest.length = 1 then ""
      else "." ++ parts.getLastD ""

/-- Model of `path.dirname` for absolute paths. -/
def dirname (s : String) : String :=
  let parts := splitStr s '/'
  if parts.length ≤ 1 then "."
  else
    let init := parts.dropLast
    if init.all (· = "") then "/" else joinSep '/' init

/-- Normalisation of `/`-separated segments: empty and `.` segments are
dropped, `..` pops the previous segment. -/
def normSegs : List String → List String → List String
  | [], acc => acc.reverse
  | "" :: rest, acc => normSegs rest acc
  | "." :: rest, acc => normSegs rest acc
  | ".." :: rest, acc => normSegs rest acc.tail
  | seg :: rest, acc => normSegs rest (seg :: acc)

/-- Model of `path.resolve(dir, rel)` for an absolute `dir`. -/
def resolvePath (dir rel : String) : String :=
  let s := if strLeads "/" rel then rel else dir ++ "/" ++ rel
  "/" ++ joinSep '/' (normSegs (splitStr s '/') [])

/-- Model of `path.join(a, b)` for a clean directory path `a` and clean
relative component `b`. -/
def joinPath (a b : String) : String := a ++ "/" ++ b

/-! ## Insertion-ordered sets and maps (JavaScript `Set` / `Map`) -/

/-- `Set.add`: append the element unless already present. -/
def sadd (xs : List String) (x : String) : List String :=
  if x ∈ xs then xs else xs ++ [x]

/-- `b.forEach(x => a.add(x))`: add every element of `b` into `a`. -/
def sunion (a b : List String) : List String :=
  b.foldl sadd a

/-- `Map.set` with replacement: update the first binding of `k` in place,
else append. -/
def cacheSet {β : Type} (m : List (String × β)) (k : String) (v : β) :
    List (String × β) :=
  match m with
  | [] => [(k, v)]
  | (k', v') :: rest =>
      if k' = k then (k, v) :: rest else (k', v') :: cacheSet rest k v

/-- `const existing = m.get(k) || new Set(); syms.forEach(s => existing.add(s));
m.set(k, existing)` on an import ledger. -/
def mapAdd (m : List (String × List String)) (k : String)
    (syms : List String) : List (String × List String) :=
  match m with
  | [] => [(k, syms.foldl sadd [])]
  | (k', v) :: rest =>
      if k' = k then (k, syms.foldl sadd v) :: rest
      else (k', v) :: mapAdd rest k syms

theorem sadd_mem {xs : List String} {x y : String} :
    y ∈ sadd xs x ↔ y ∈ xs ∨ y = x := by
  unfold sadd
  split
  · rename_i h
    constructor
    · exact fun hy => Or.inl hy
    · rintro (hy | rfl)
      · exact hy
      · exact h
  · simp [List.mem_append]

theorem sunion_mem {a b : List String} {y : String} :
    y ∈ sunion a b ↔ y ∈ a ∨ y ∈ b := by
  induction b generalizing a with
  | nil => simp [sunion]
  | cons x rest ih =>
      show y ∈ sunion (sadd a x) rest ↔ _
      rw [ih, sadd_mem]
      simp [or_assoc]

theorem foldl_sadd_mem {a b : List String} {y : String} :
    y ∈ b.foldl sadd a ↔ y ∈ a ∨ y ∈ b := sunion_mem

/-! ## Data model (`src/service.ts`, type section, and the syntax shapes
dispatched by `visitNode`) -/

/-- One analysed file's `Result`: import ledger, default export, named
export surface, style imports.  `importM` embeds the source's `import`
field (`import` is a keyword in Lean). -/
structure Result where
  importM : List (String × List String)
  defaultExport : Option String
  commonExport : List String
  styleImports : List String
deriving DecidableEq, Repr

def emptyResult : Result := ⟨[], none, [], []⟩

/-- Binding name of a variable declaration: an identifier or a
(possibly nested) object/array binding pattern. -/
inductive BindingName where
  | ident (s : String)
  | pat (elems : List BindingName)

mutual

/-- `extractBindingNames`: every recursively unpacked leaf identifier of a
binding pattern, in syntactic order. -/
def bindingLeaves : BindingName → List String
  | .ident s => [s]
  | .pat elems => bindingLeavesList elems

/-- Leaf identifiers of a list of binding elements, in order. -/
def bindingLeavesList : List BindingName → List String
  | [] => []
  | b :: rest => bindingLeaves b ++ bindingLeavesList rest

end

/-- Named bindings of an import clause: `import { a, b as c }` (each element
is `(propertyName?, name)`) or `import * as ns`. -/
inductive NamedBindings where
  | named (elems : List (Option String × String))
  | namespaceB
deriving DecidableEq, Repr

/-- An `importClause`: optional default binding plus optional named
bindings. -/
structure ImportClause where
  hasDefault : Bool
  bindings : Option NamedBindings
deriving DecidableEq, Repr

/-- Export clause of an `ExportDeclaration`: `export { a, b as c }`
(elements are `(propertyName?, name)`) or `export * as ns`. -/
inductive ExportClauseK where
  | named (elems : List (Option String × String))
  | star (ns : String)
deriving DecidableEq, Repr

/-- Expression of an `ExportAssignment` (`export default <expr>` /
`export = <expr>`), as far as `handleExportAssignment` inspects it. -/
inductive ExportAssignExpr where
  | identE (s : String)
  | funcNamed (s : String)
  | classNamed (s : String)
  | anon
deriving DecidableEq, Repr

/-- Declaration kinds recognised by `handleExportedDeclaration`.
`funcDecl`/`classDecl` names are optional; `moduleDecl none` stands for a
module whose name is not an identifier. -/
inductive DeclKind where
  | funcDecl (name : Option String)
  | classDecl (name : Option String)
  | interfaceDecl (name : String)
  | typeAliasDecl (name : String)
  | enumDecl (name : String)
  | moduleDecl (name : Option String)
  | varStmt (decls : List BindingName)
  | otherDecl

/-- The syntax-tree nodes `visitNode` dispatches on.  `visitNode` walks the
whole tree and treats every matching node identically at any depth, so a
file's tree is embedded as the list of its matching nodes in visit
order. -/
inductive Node where
  | importDecl (spec : String) (clause : Option ImportClause)
  | importEquals (spec : String)
  | dynamicImport (spec : String)
  | requireCall (spec : String)
  | exportDecl (spec : Option String) (clause : Option ExportClauseK)
  | exportAssign (isEquals : Bool) (expr : ExportAssignExpr)
  | exportedDecl (hasExport hasDefault : Bool) (decl : DeclKind)

abbrev AST := List Node

/-- File-system value: regular files (with their parsed trees) and other
existing paths (directories).  `fs.existsSync` is `existsP`,
`fs.statSync(p).isFile()` is `isFile`. -/
structure FSys where
  files : List (String × AST)
  extra : List String

def FSys.isFile (fs : FSys) (p : String) : Bool :=
  (List.lookup p fs.files).isSome

def FSys.existsP (fs : FSys) (p : String) : Bool :=
  fs.isFile p || fs.extra.contains p

/-- Engine configuration: the file system plus the alias table
(`PathsMapping`, already resolved to absolute base paths). -/
structure Env where
  fs : FSys
  pathsMapping : List (String × String)

/-- Engine-instance state: the persistent dependency graph, the export
cache and the analysed-files set.  `alog` records one entry per run of
the extraction pass `analyzeFile` (instrumentation, see the header). -/
structure Engine where
  depsGraph : List (String × Result)
  exportCache : List (String × Result)
  analyzedFiles : List String
  alog : List String
deriving DecidableEq, Repr

def engine0 : Engine := ⟨[], [], [], []⟩

/-! ## Pure helpers (`src/service.ts` lines 649-817) -/

/-- Style-file extension list of `isStyleFile`/`resolveStylePath`. -/
def styleExts : List String :=
  [".css", ".scss", ".sass", ".less", ".styl", ".stylus"]

/-- `isStyleFile`: the lower-cased extension is a style extension. -/
def isStyleFile (p : String) : Bool :=
  styleExts.contains (lowerStr (extname p))

/-- `isRelativeImportPath`: starts with `./` or `../`. -/
def isRelativeImportPath (p : String) : Bool :=
  strLeads "./" p || strLeads "../" p

/-- `isLocalImportPath`: relative, or an exact key of the alias table. -/
def isLocalImportPath (pm : List (String × String)) (p : String) : Bool :=
  isRelativeImportPath p || (List.lookup p pm).isSome

/-- Extension list of `resolveFilePath`. -/
def exts : List String :=
  [".ts", ".tsx", ".js", ".jsx", ".mjs", ".cjs", ".json"]

/-- Extension list of `findEntryFile` and `isTypeScriptFile`. -/
def entryExts : List String := [".ts", ".tsx", ".js", ".jsx"]

/-- Second phase of `resolveFilePath`: probe `p ++ ext` with `existsSync`
for each extension in order. -/
def probeExtLoop (fs : FSys) (p : String) : List String → Option String
  | [] => none
  | e :: rest =>
      if fs.existsP (p ++ e) then some (p ++ e) else probeExtLoop fs p rest

/-- Third phase of `resolveFilePath` (also the body of `findEntryFile`):
probe `p/index ++ ext` with `existsSync` for each extension in order. -/
def probeIndexLoop (fs : FSys) (p : String) : List String → Option String
  | [] => none
  | e :: rest =>
      let q := joinPath p ("index" ++ e)
      if fs.existsP q then some q else probeIndexLoop fs p rest

/-- `resolveFilePath`: the literal path if it exists as a regular file,
else the path with each extension appended, else `index.<ext>` inside the
path, else `null`. -/
def resolveFilePath (fs : FSys) (p : String) : Option String :=
  if fs.existsP p && fs.isFile p then some p
  else
    match probeExtLoop fs p exts with
    | some q => some q
    | none => probeIndexLoop fs p exts

/-- `findEntryFile`: probe `dirPath/index.<ext>` for the four extensions
`.ts, .tsx, .js, .jsx` (its own loop is identical to `probeIndexLoop`). -/
def findEntryFile (fs : FSys) (dirPath : String) : Option String :=
  probeIndexLoop fs dirPath entryExts

/-- `resolveImportPath`: relative specifiers resolve against the importing
file's directory, alias specifiers against the alias base; in both cases
`resolveFilePath`'s answer is used when it exists, else the computed path
itself; non-local specifiers are returned verbatim. -/
def resolveImportPath (env : Env) (fromFile p : String) : String :=
  if isRelativeImportPath p then
    let resolved := resolvePath (dirname fromFile) p
    (resolveFilePath env.fs resolved).getD resolved
  else
    match List.lookup p env.pathsMapping with
    | some base => (resolveFilePath env.fs base).getD base
    | none => p

/-- `resolveStylePath`: relative style specifiers resolve to the computed
path (probing the style extensions when the path has none), falling back
to the possibly nonexistent computed path; alias style specifiers must
resolve to an existing regular file or yield `null`. -/
def resolveStylePath (env : Env) (fromFile p : String) : Option String :=
  if isRelativeImportPath p then
    let resolved := resolvePath (dirname fromFile) p
    if env.fs.existsP resolved && env.fs.isFile resolved then some resolved
    else if extname resolved = "" then
      match styleExts.find?
          (fun e => env.fs.existsP (resolved ++ e) && env.fs.isFile (resolved ++ e)) with
      | some e => some (resolved ++ e)
      | none => some resolved
    else some resolved
  else
    match List.lookup p env.pathsMapping with
    | some base =>
        if env.fs.existsP base && env.fs.isFile base then some base else none
    | none => none

/-- `handleExportAssignment`: `export = …` sets the reserved
`module.exports` marker; `export default …` sets the identifier's or named
function/class expression's name, else the sentinel `default`. -/
def handleExportAssign (isEquals : Bool) (e : ExportAssignExpr)
    (r : Result) : Result :=
  if isEquals then { r with defaultExport := some "module.exports" }
  else
    match e with
    | .identE s => { r with defaultExport := some s }
    | .funcNamed s => { r with defaultExport := some s }
    | .classNamed s => { r with defaultExport := some s }
    | .anon => { r with defaultExport := some "default" }

/-- `handleExportedDeclaration`: default-modified function/class
declarations set `defaultExport` (their own name, else the sentinel);
other exported declarations add their declared names (for variable
statements: every recursively unpacked binding leaf) to `commonExport`. -/
def handleExportedDecl (hasExport hasDefault : Bool) (d : DeclKind)
    (r : Result) : Result :=
  if !hasExport then r
  else if hasDefault then
    match d with
    | .funcDecl n => { r with defaultExport := some (n.getD "default") }
    | .classDecl n => { r with defaultExport := some (n.getD "default") }
    | _ => r
  else
    match d with
    | .funcDecl n =>
        match n with
        | some s => { r with commonExport := sadd r.commonExport s }
        | none => r
    | .classDecl n =>
        match n with
        | some s => { r with commonExport := sadd r.commonExport s }
        | none => r
    | .interfaceDecl s => { r with commonExport := sadd r.commonExport s }
    | .typeAliasDecl s => { r with commonExport := sadd r.commonExport s }
    | .enumDecl s => { r with commonExport := sadd r.commonExport s }
    | .moduleDecl n =>
        match n with
        | some s => { r with commonExport := sadd r.commonExport s }
        | none => r
    | .varStmt decls =>
        { r with commonExport :=
            decls.foldl (fun acc d => sunion acc (bindingLeaves d)) r.commonExport }
    | .otherDecl => r

/-! ## The extraction pass (`analyzeFile`, `visitNode` and the import/export
handlers, together with `getFileExports`), lines 273-594 and 694-710.

These functions are mutually recursive through
`getFileExports → analyzeFile → visitNode → handler → getFileExports`
with no structural bound, so each call consumes one unit of fuel;
`none` is the out-of-fuel marker. -/

mutual

/-- `analyzeFile`: read the file (a failed read yields `null` and no state
change), run the extraction pass over its tree starting from an empty
`Result`, then record the result in `exportCache` and `analyzedFiles`.
The pass itself is logged in `alog`. -/
def analyzeFile (env : Env) : Nat → Engine → String → Option (Engine × Option Result)
  | 0, _, _ => none
  | fuel + 1, st, p =>
      match List.lookup p env.fs.files with
      | none => some (st, none)
      | some ast =>
          let st1 : Engine := { st with alog := st.alog ++ [p] }
          match visitAST env fuel st1 ast emptyResult p with
          | none => none
          | some (st2, r) =>
              some ({ st2 with
                        exportCache := cacheSet st2.exportCache p r,
                        analyzedFiles := sadd st2.analyzedFiles p }, some r)
termination_by structural fuel st p => fuel

/-- `getFileExports`: export cache first, then the dependency graph, else
resolve the path and analyze the file on the spot. -/
def getFileExports (env : Env) : Nat → Engine → String → Option (Engine × Option Result)
  | 0, _, _ => none
  | fuel + 1, st, p =>
      match List.lookup p st.exportCache with
      | some r => some (st, some r)
      | none =>
          match List.lookup p st.depsGraph with
          | some r => some (st, some r)
          | none =>
              match resolveFilePath env.fs p with
              | none => some (st, none)
              | some actual => analyzeFile env fuel st actual
termination_by structural fuel st p => fuel

/-- `visitNode`'s traversal: process every dispatched node of the tree in
order, threading the engine state and the file's `Result`. -/
def visitAST (env : Env) : Nat → Engine → List Node → Result → String → Option (Engine × Result)
  | 0, _, _, _, _ => none
  | _ + 1, st, [], r, _ => some (st, r)
  | fuel + 1, st, n :: rest, r, cur =>
      match handleNode env fuel st n r cur with
      | none => none
      | some (st', r') => visitAST env fuel st' rest r' cur
termination_by structural fuel st nodes r cur => fuel

/-- `visitNode`'s dispatch on one node, with `handleImportDeclaration` and
`handleExportDeclaration` inlined. -/
def handleNode (env : Env) : Nat → Engine → Node → Result → String → Option (Engine × Result)
  | 0, _, _, _, _ => none
  | fuel + 1, st, n, r, cur =>
      match n with
      | .importDecl spec clause =>
          if isStyleFile spec then
            match resolveStylePath env cur spec with
            | some sp => some (st, { r with styleImports := sadd r.styleImports sp })
            | none => some (st, r)
          else if isLocalImportPath env.pathsMapping spec then
            let abs := resolveImportPath env cur spec
            match clause with
            | none => some (st, { r with importM := mapAdd r.importM abs [] })
            | some c =>
                let s1 : List String := if c.hasDefault then sadd [] "default" else []
                match c.bindings with
                | none =>
                    if s1 ≠ [] then
                      some (st, { r with importM := mapAdd r.importM abs s1 })
                    else some (st, r)
                | some (.named elems) =>
                    let syms := elems.foldl (fun acc e => sadd acc (e.1.getD e.2)) s1
                    if syms ≠ [] then
                      some (st, { r with importM := mapAdd r.importM abs syms })
                    else some (st, r)
                | some .namespaceB =>
                    match getFileExports env fuel st abs with
                    | none => none
                    | some (st', te) =>
                        let syms :=
                          match te with
                          | some t =>
                              let s2 := sunion s1 t.commonExport
                              if t.defaultExport.isSome then sadd s2 "default" else s2
                          | none => s1
                        if syms ≠ [] then
                          some (st', { r with importM := mapAdd r.importM abs syms })
                        else some (st', r)
          else some (st, r)
      | .importEquals spec => handleFullImport env fuel st spec r cur
      | .dynamicImport spec => handleFullImport env fuel st spec r cur
      | .requireCall spec => handleFullImport env fuel st spec r cur
      | .exportDecl specOpt clause =>
          match specOpt with
          | some spec =>
              if isLocalImportPath env.pathsMapping spec then
                let abs := resolveImportPath env cur spec
                match clause with
                | some (.named elems) =>
                    let imp := elems.foldl (fun acc e => sadd acc (e.1.getD e.2)) []
                    let exps := elems.foldl (fun acc e => sadd acc e.2) []
                    let r1 :=
                      if imp ≠ [] then { r with importM := mapAdd r.importM abs imp } else r
                    some (st, { r1 with commonExport := sunion r1.commonExport exps })
                | some (.star ns) =>
                    match getFileExports env fuel st abs with
                    | none => none
                    | some (st', te) =>
                        match te with
                        | some t =>
                            let imp0 := sunion [] t.commonExport
                            let imp :=
                              if t.defaultExport.isSome then sadd imp0 "default" else imp0
                            let exps := sadd [] ns
                            let r1 :=
                              if imp ≠ [] then { r with importM := mapAdd r.importM abs imp } else r
                            some (st', { r1 with commonExport := sunion r1.commonExport exps })
                        | none => some (st', r)
                | none =>
                    match getFileExports env fuel st abs with
                    | none => none
                    | some (st', te) =>
                        match te with
                        | some t =>
                            let imp := sunion [] t.commonExport
                            let exps := sunion [] t.commonExport
                            let r1 :=
                              if imp ≠ [] then { r with importM := mapAdd r.importM abs imp } else r
                            some (st', { r1 with commonExport := sunion r1.commonExport exps })
                        | none => some (st', r)
              else some (st, r)
          | none =>
              match clause with
              | some (.named elems) =>
                  some (st, { r with
                    commonExport := elems.foldl (fun acc e => sadd acc e.2) r.commonExport })
              | _ => some (st, r)
      | .exportAssign isEq e => some (st, handleExportAssign isEq e r)
      | .exportedDecl he hd d => some (st, handleExportedDecl he hd d r)
termination_by structural fuel st n r cur => fuel

/-- Shared body of `handleImportEquals`, `handleDynamicImport` and
`handleRequire` (the three source functions are verbatim copies of each
other): resolve the specifier and import the target's full known export
surface. -/
def handleFullImport (env : Env) : Nat → Engine → String → Result → String → Option (Engine × Result)
  | 0, _, _, _, _ => none
  | fuel + 1, st, spec, r, cur =>
      if isStyleFile spec then
        match resolveStylePath env cur spec with
        | some sp => some (st, { r with styleImports := sadd r.styleImports sp })
        | none => some (st, r)
      else if isLocalImportPath env.pathsMapping spec then
        let abs := resolveImportPath env cur spec
        match getFileExports env fuel st abs with
        | none => none
        | some (st', te) =>
            let syms :=
              match te with
              | some t =>
                  let s1 := sunion [] t.commonExport
                  if t.defaultExport.isSome then sadd s1 "default" else s1
              | none => []
            if syms ≠ [] then
              some (st', { r with importM := mapAdd r.importM abs syms })
            else some (st', r)
      else some (st, r)
termination_by structural fuel st spec r cur => fuel

end

/-! ## Recursive graph construction (`analyzeFileRecursive`, lines 208-244).

The per-invocation visited set is shared-mutable in the source, so it is
threaded through the recursion; the recursion gets its own fuel `fr`
(one unit per call), while `fa` is handed to the extraction pass. -/

mutual

/-- `analyzeFileRecursive`: skip visited paths, resolve the path, reuse an
existing graph `Result` (still traversing its recorded edges), else run
the extraction pass, record the `Result` in the graph and recurse on
each import key. -/
def analyzeRec (env : Env) : Nat → Nat → Engine → String → List String →
    Option (Engine × List String)
  | 0, _, _, _, _ => none
  | fr + 1, fa, st, p, visited =>
      if p ∈ visited then some (st, visited)
      else
        let visited := sadd visited p
        match resolveFilePath env.fs p with
        | none => some (st, visited)
        | some actual =>
            match List.lookup actual st.depsGraph with
            | some r => recList env fr fa st (r.importM.map Prod.fst) visited
            | none =>
                match analyzeFile env fa st actual with
                | none => none
                | some (st1, none) => some (st1, visited)
                | some (st1, some r) =>
                    let st2 : Engine :=
                      { st1 with depsGraph := cacheSet st1.depsGraph actual r }
                    recList env fr fa st2 (r.importM.map Prod.fst) visited
termination_by structural fr fa st p visited => fr

/-- The `for (const importPath of result.import.keys())` loop of
`analyzeFileRecursive`. -/
def recList (env : Env) : Nat → Nat → Engine → List String → List String →
    Option (Engine × List String)
  | 0, _, _, _, _ => none
  | _ + 1, _, st, [], visited => some (st, visited)
  | fr + 1, fa, st, ip :: rest, visited =>
      match analyzeRec env fr fa st ip visited with
      | none => none
      | some (st', visited') => recList env fr fa st' rest visited'
termination_by structural fr fa st ips visited => fr

end

/-! ## Symbol-provenance tracing (`traceSymbolSource`, lines 155-203).

The per-path visited set is copied at each recursive call
(`new Set(visited)`), so the loop over the import ledger uses one fixed
enlarged set; recursion descends only into files that are graph keys and
not yet on the path, which bounds it fuel-free. -/

/-- Number of graph keys not yet on the visited path: the tracer's
termination measure. -/
def keysLeft (g : List (String × Result)) (visited : List String) : Nat :=
  ((g.map Prod.fst).filter (fun k => decide (k ∉ visited))).length

theorem length_filter_le_of_imp {p q : String → Bool} (l : List String)
    (h : ∀ a, p a = true → q a = true) :
    (l.filter p).length ≤ (l.filter q).length := by
  induction l with
  | nil => simp
  | cons x rest ih =>
      cases hp : p x with
      | false =>
          cases hq : q x with
          | false => simpa [List.filter, hp, hq] using ih
          | true =>
              simp only [List.filter, hp, hq, List.length_cons]
              omega
      | true =>
          have hq := h x hp
          simp only [List.filter, hp, hq, List.length_cons]
          omega

theorem filter_visited_lt (visited : List String) (fp : String)
    (hv : fp ∉ visited) :
    ∀ l : List String, fp ∈ l →
      (l.filter (fun k => decide (k ∉ visited ++ [fp]))).length <
        (l.filter (fun k => decide (k ∉ visited))).length := by
  intro l hk
  induction l with
  | nil => simp at hk
  | cons x rest ih =>
      have hle := length_filter_le_of_imp
        (p := fun k => decide (k ∉ visited ++ [fp]))
        (q := fun k => decide (k ∉ visited)) rest
        (by
          intro a ha
          simp only [decide_eq_true_eq, List.mem_append, List.mem_singleton] at ha ⊢
          exact fun hm => ha (Or.inl hm))
      by_cases hx : x = fp
      · subst hx
        have h1 : (decide (x ∉ visited ++ [x])) = false := by simp
        have h2 : (decide (x ∉ visited)) = true := by simpa using hv
        simp only [List.filter, h1, h2, List.length_cons]
        omega
      · have hk' : fp ∈ rest := by
          rcases List.mem_cons.mp hk with h | h
          · exact absurd h.symm hx
          · exact h
        have hlt := ih hk'
        by_cases hxv : x ∈ visited ++ [fp]
        · have h1 : (decide (x ∉ visited ++ [fp])) = false := by
            simp only [decide_eq_false_iff_not, not_not]
            exact hxv
          by_cases hxv2 : x ∈ visited
          · have h2 : (decide (x ∉ visited)) = false := by
              simp only [decide_eq_false_iff_not, not_not]
              exact hxv2
            simpa [List.filter, h1, h2] using hlt
          · have h2 : (decide (x ∉ visited)) = true := by simpa using hxv2
            simp only [List.filter, h1, h2, List.length_cons]
            omega
        · have h1 : (decide (x ∉ visited ++ [fp])) = true := by simpa using hxv
          have hxv2 : x ∉ visited := fun hm => hxv (List.mem_append.mpr (Or.inl hm))
          have h2 : (decide (x ∉ visited)) = true := by simpa using hxv2
          simp only [List.filter, h1, h2, List.length_cons]
          omega

theorem keysLeft_sadd_lt {g : List (String × Result)} {visited : List String}
    {fp : String} (hk : fp ∈ g.map Prod.fst) (hv : fp ∉ visited) :
    keysLeft g (sadd visited fp) < keysLeft g visited := by
  unfold keysLeft sadd
  rw [if_neg hv]
  exact filter_visited_lt visited fp hv _ hk

theorem lookup_mem_keys {β : Type} {g : List (String × β)} {fp : String} {r : β}
    (h : List.lookup fp g = some r) : fp ∈ g.map Prod.fst := by
  induction g with
  | nil => simp [List.lookup] at h
  | cons x rest ih =>
      simp only [List.lookup] at h
      by_cases he : fp = x.1
      · simp [he]
      · have hb : (fp == x.1) = false := beq_false_of_ne he
        rw [hb] at h
        simp only [List.map_cons, List.mem_cons]
        exact Or.inr (ih h)

/-- Total number of import-ledger entries across the graph, part of the
fuel bound realising the tracer's recursion. -/
def totE (g : List (String × Result)) : Nat :=
  (g.map (fun pr => pr.2.importM.length)).sum

/-- Fuel sufficient for the tracer starting from `visited`: along any
path each unvisited graph key is entered at most once, with one ledger
loop in between (sufficiency is proven in `traceSymbolSource_unfold`). -/
def traceBound (g : List (String × Result)) (visited : List String) : Nat :=
  keysLeft g visited * (totE g + 1) + 1

theorem lookup_pair_mem {β : Type} {g : List (String × β)} {fp : String}
    {info : β} (h : List.lookup fp g = some info) : (fp, info) ∈ g := by
  induction g with
  | nil => simp [List.lookup] at h
  | cons x rest ih =>
      rw [List.lookup] at h
      cases hbe : fp == x.1 with
      | true =>
          rw [hbe] at h
          obtain ⟨x1, x2⟩ := x
          have h1 : fp = x1 := eq_of_beq hbe
          have h2 : x2 = info := Option.some.inj h
          rw [h1, ← h2]
          exact List.mem_cons_self _ _
      | false =>
          rw [hbe] at h
          exact List.mem_cons_of_mem _ (ih h)

mutual

/-- Fuel-indexed body of `traceSymbolSource`; one unit of fuel per call.
`traceBound` fuel is sufficient, so the source recursion is realised
exactly (theorem `traceSymbolSource_unfold`). -/
def traceFuel (g : List (String × Result)) : Nat → String → String →
    List String → List String
  | 0, _, _, _ => []
  | fuel + 1, fp, s, visited =>
      if fp ∈ visited then []
      else
        match List.lookup fp g with
        | none => sadd [] fp
        | some info =>
            let isExported :=
              if s = "default" then info.defaultExport.isSome
              else info.commonExport.contains s
            if isExported then
              let (sources, found) :=
                traceLoopF g fuel s (sadd visited fp) info.importM [] false
              if found then sources else sadd sources fp
            else []
termination_by structural fuel fp s visited => fuel

/-- Fuel-indexed body of the import-ledger loop of `traceSymbolSource`. -/
def traceLoopF (g : List (String × Result)) : Nat → String → List String →
    List (String × List String) → List String → Bool → List String × Bool
  | 0, _, _, _, sources, found => (sources, found)
  | _ + 1, _, _, [], sources, found => (sources, found)
  | fuel + 1, s, visited', (ip, syms) :: rest, sources, found =>
      if syms.contains s then
        traceLoopF g fuel s visited' rest
          (sunion sources (traceFuel g fuel ip s visited')) true
      else traceLoopF g fuel s visited' rest sources found
termination_by structural fuel s visited' entries sources found => fuel

end

/-- `traceSymbolSource` (lines 155-203): empty on a path revisit; an
absent file is its own terminal origin; a symbol not on the export
surface yields the empty set; otherwise follow every import edge carrying
the symbol, each recursion given a copy of the enlarged path, and fall
back to the file itself when no edge carried the symbol.  The recursion
is realised through `traceFuel` with provably sufficient fuel; its
defining equation is `traceSymbolSource_unfold`. -/
def traceSymbolSource (g : List (String × Result)) (fp s : String)
    (visited : List String) : List String :=
  traceFuel g (traceBound g visited) fp s visited

/-- The `for ([importPath, importedSymbols] of fileInfo.import)` loop of
`traceSymbolSource`, accumulating `sources` and the `foundInImports`
flag. -/
def traceLoop (g : List (String × Result)) (s : String) (visited' : List String) :
    List (String × List String) → List String → Bool → List String × Bool
  | [], sources, found => (sources, found)
  | (ip, syms) :: rest, sources, found =>
      if syms.contains s then
        traceLoop g s visited' rest
          (sunion sources (traceSymbolSource g ip s visited')) true
      else traceLoop g s visited' rest sources found

theorem mem_importM_length_le {g : List (String × Result)} {fp : String}
    {info : Result} (h : (fp, info) ∈ g) : info.importM.length ≤ totE g := by
  induction g with
  | nil => simp at h
  | cons x rest ih =>
      rcases List.mem_cons.mp h with rfl | hx
      · simp only [totE, List.map_cons, List.sum_cons]
        omega
      · have := ih hx
        simp only [totE, List.map_cons, List.sum_cons] at *
        omega

theorem traceBound_pos (g : List (String × Result)) (v : List String) :
    1 ≤ traceBound g v := by
  unfold traceBound
  omega

theorem bound_step {g : List (String × Result)} {fp : String} {info : Result}
    {v : List String} (hl : List.lookup fp g = some info) (hv : fp ∉ v) :
    info.importM.length + traceBound g (sadd v fp) ≤
      keysLeft g v * (totE g + 1) := by
  have hk : fp ∈ g.map Prod.fst := lookup_mem_keys hl
  have hlt : keysLeft g (sadd v fp) < keysLeft g v := keysLeft_sadd_lt hk hv
  have hlen : info.importM.length ≤ totE g :=
    mem_importM_length_le (lookup_pair_mem hl)
  unfold traceBound
  have hmul : (keysLeft g (sadd v fp) + 1) * (totE g + 1) ≤
      keysLeft g v * (totE g + 1) :=
    Nat.mul_le_mul_right _ (by omega)
  have hexp : (keysLeft g (sadd v fp) + 1) * (totE g + 1) =
      keysLeft g (sadd v fp) * (totE g + 1) + (totE g + 1) := by ring
  omega

theorem traceFuel_congr (g : List (String × Result)) :
    ∀ n, (∀ m fp s v, traceBound g v ≤ n → traceBound g v ≤ m →
            traceFuel g n fp s v = traceFuel g m fp s v) ∧
         (∀ m s v' es src fnd,
            es.length + traceBound g v' ≤ n →
            es.length + traceBound g v' ≤ m →
            traceLoopF g n s v' es src fnd = traceLoopF g m s v' es src fnd) := by
  intro n
  induction n using Nat.strong_induction_on with
  | _ n ih =>
    constructor
    · intro m fp s v hn hm
      have h1 := traceBound_pos g v
      match n, m with
      | n' + 1, m' + 1 =>
        simp only [traceFuel]
        by_cases hfv : fp ∈ v
        · simp [hfv]
        · simp only [hfv, if_false]
          cases hl : List.lookup fp g with
          | none => rfl
          | some info =>
              have hle := bound_step hl hfv
              have hn' : info.importM.length + traceBound g (sadd v fp) ≤ n' := by
                unfold traceBound at hn
                omega
              have hm' : info.importM.length + traceBound g (sadd v fp) ≤ m' := by
                unfold traceBound at hm
                omega
              have hloop := (ih n' (by omega)).2 m' s (sadd v fp) info.importM [] false
                hn' hm'
              simp only [hloop]
    · intro m s v' es src fnd hn hm
      have h1 := traceBound_pos g v'
      match n, m with
      | n' + 1, m' + 1 =>
        cases es with
        | nil => rfl
        | cons e rest =>
            obtain ⟨ip, syms⟩ := e
            simp only [List.length_cons] at hn hm
            have hbv : traceBound g v' ≤ n' := by omega
            have hbv' : traceBound g v' ≤ m' := by omega
            have hrest : rest.length + traceBound g v' ≤ n' := by omega
            have hrest' : rest.length + traceBound g v' ≤ m' := by omega
            simp only [traceLoopF]
            by_cases hc : syms.contains s = true
            · simp only [hc, if_true]
              rw [(ih n' (by omega)).1 m' ip s v' hbv hbv',
                (ih n' (by omega)).2 m' s v' rest _ _ hrest hrest']
            · simp only [hc, if_false]
              exact (ih n' (by omega)).2 m' s v' rest src fnd hrest hrest'

theorem traceLoopF_eq_traceLoop (g : List (String × Result)) (s : String)
    (v' : List String) :
    ∀ es fuel src fnd, es.length + traceBound g v' ≤ fuel →
      traceLoopF g fuel s v' es src fnd = traceLoop g s v' es src fnd := by
  intro es
  induction es with
  | nil =>
      intro fuel src fnd h
      have := traceBound_pos g v'
      match fuel with
      | fuel' + 1 => rfl
  | cons e rest ih =>
      intro fuel src fnd h
      obtain ⟨ip, syms⟩ := e
      have := traceBound_pos g v'
      simp only [List.length_cons] at h
      match fuel with
      | fuel' + 1 =>
        simp only [traceLoopF, traceLoop]
        have hbv : traceBound g v' ≤ fuel' := by omega
        have hrest : rest.length + traceBound g v' ≤ fuel' := by omega
        by_cases hc : syms.contains s = true
        · simp only [hc, if_true]
          rw [(traceFuel_congr g fuel').1 (traceBound g v') ip s v' hbv (le_refl _)]
          exact ih fuel' _ _ hrest
        · simp only [hc, if_false]
          exact ih fuel' _ _ hrest

/-- Defining equation of `traceSymbolSource`: the fuel realisation
computes exactly the source's recursion. -/
theorem traceSymbolSource_unfold (g : List (String × Result)) (fp s : String)
    (v : List String) :
    traceSymbolSource g fp s v =
      if fp ∈ v then []
      else
        match List.lookup fp g with
        | none => sadd [] fp
        | some info =>
            if (if s = "default" then info.defaultExport.isSome
                else info.commonExport.contains s) then
              let (sources, found) := traceLoop g s (sadd v fp) info.importM [] false
              if found then sources else sadd sources fp
            else []
    := by
  show traceFuel g (keysLeft g v * (totE g + 1) + 1) fp s v = _
  simp only [traceFuel]
  by_cases hfv : fp ∈ v
  · simp [hfv]
  · simp only [hfv, if_false]
    cases hl : List.lookup fp g with
    | none => rfl
    | some info =>
        have hle := bound_step hl hfv
        simp only [traceLoopF_eq_traceLoop g s (sadd v fp) info.importM
          (keysLeft g v * (totE g + 1)) [] false (by omega)]

/-! ## The transitive-closure query (`query` and
`findAllFinalDependencies`, lines 76-146).

`findAllFinalDependencies` shares one `finalDeps` accumulator and one
`visited` set across the whole computation, so both are threaded as a
state pair; the nested `for` loops become the `fa…` helpers.  Each call
consumes one unit of fuel, `none` marking exhaustion. -/

mutual

/-- `findAllFinalDependencies`: skip a visited file, else mark it visited
and, for every `(edge, symbol)` pair of its import ledger, trace the
symbol's origins from the edge target and recursively expand each origin
found. -/
def findAllDeps (g : List (String × Result)) : Nat → String →
    List String × List String → Option (List String × List String)
  | 0, _, _ => none
  | fuel + 1, fp, (finalDeps, visited) =>
      if fp ∈ visited then some (finalDeps, visited)
      else
        let visited := sadd visited fp
        match List.lookup fp g with
        | none => some (finalDeps, visited)
        | some info => faEntries g fuel info.importM (finalDeps, visited)
termination_by structural fuel fp st => fuel

/-- The loop over `fileInfo.import.entries()` in
`findAllFinalDependencies`. -/
def faEntries (g : List (String × Result)) : Nat → List (String × List String) →
    List String × List String → Option (List String × List String)
  | 0, _, _ => none
  | _ + 1, [], st => some st
  | fuel + 1, (ip, syms) :: rest, st =>
      match faSyms g fuel ip syms st with
      | none => none
      | some st' => faEntries g fuel rest st'
termination_by structural fuel entries st => fuel

/-- The loop over the `importedSymbols` of one edge: trace each symbol from
the edge target with a fresh empty path. -/
def faSyms (g : List (String × Result)) : Nat → String → List String →
    List String × List String → Option (List String × List String)
  | 0, _, _, _ => none
  | _ + 1, _, [], st => some st
  | fuel + 1, ip, s :: rest, st =>
      match faSrcs g fuel (traceSymbolSource g ip s []) st with
      | none => none
      | some st' => faSyms g fuel ip rest st'
termination_by structural fuel ip syms st => fuel

/-- The loop over one trace's origins: add each to `finalDeps` and expand
it recursively. -/
def faSrcs (g : List (String × Result)) : Nat → List String →
    List String × List String → Option (List String × List String)
  | 0, _, _ => none
  | _ + 1, [], st => some st
  | fuel + 1, src :: rest, (finalDeps, visited) =>
      match findAllDeps g fuel src (sadd finalDeps src, visited) with
      | none => none
      | some st' => faSrcs g fuel rest st'
termination_by structural fuel srcs st => fuel

end

/-- The closure-plus-styles part of `query` (lines 89-109): compute the
final dependencies of `p`, then union in the `styleImports` of every
graph file in the final-dependency set. -/
def queryPure (g : List (String × Result)) (fuel : Nat) (p : String) :
    Option (List String) :=
  match findAllDeps g fuel p ([], []) with
  | none => none
  | some (finalDeps, _) =>
      let styleDeps := finalDeps.foldl
        (fun acc d =>
          match List.lookup d g with
          | some r => sunion acc r.styleImports
          | none => acc) []
      some (sunion finalDeps styleDeps)

/-- `query`: resolve the queried path (a miss yields the empty result),
analyze it on demand unless already in the graph, then run the closure
computation on the resulting graph. -/
def query (env : Env) (fr fa fq : Nat) (st : Engine) (p : String) :
    Option (Engine × List String) :=
  match resolveFilePath env.fs p with
  | none => some (st, [])
  | some actual =>
      let ensured :=
        if (List.lookup actual st.depsGraph).isSome then some st
        else
          match analyzeRec env fr fa st actual [] with
          | none => none
          | some (st', _) => some st'
      match ensured with
      | none => none
      | some st1 =>
          match queryPure st1.depsGraph fq actual with
          | none => none
          | some res => some (st1, res)

/-! ## Spec-side definitions for claim C8 (candidate-path resolution).

These two definitions follow the words of the spec (§4.1/§4.3) rather
than the source; the claim compares the source functions against them. -/

/-- Spec §4.1 candidate order, first match wins: the literal candidate if
it exists as a regular file; the candidate with each extension of the
fixed list appended; the candidate as a directory, probing `index.<ext>`
in the same order. -/
def specCandidateResolve (fs : FSys) (p : String) : Option String :=
  if fs.existsP p && fs.isFile p then some p
  else
    ((exts.map (fun e => p ++ e)) ++
      (exts.map (fun e => joinPath p ("index" ++ e)))).find? fs.existsP

/-- Entry-file probe over a given extension list: the first existing
`index.<ext>` inside the directory. -/
def specEntryProbe (l : List String) (fs : FSys) (d : String) : Option String :=
  (l.map (fun e => joinPath d ("index" ++ e))).find? fs.existsP

theorem probeExtLoop_eq_find (fs : FSys) (p : String) (l : List String) :
    probeExtLoop fs p l = (l.map (fun e => p ++ e)).find? fs.existsP := by
  induction l with
  | nil => rfl
  | cons e rest ih =>
      simp only [probeExtLoop, List.map_cons, List.find?]
      cases h : fs.existsP (p ++ e) with
      | true => simp [h]
      | false => simp [h, ih]

theorem probeIndexLoop_eq_find (fs : FSys) (p : String) (l : List String) :
    probeIndexLoop fs p l =
      (l.map (fun e => joinPath p ("index" ++ e))).find? fs.existsP := by
  induction l with
  | nil => rfl
  | cons e rest ih =>
      simp only [probeIndexLoop, List.map_cons, List.find?]
      cases h : fs.existsP (joinPath p ("index" ++ e)) with
      | true => simp [h]
      | false => simp [h, ih]

/-! ## Concrete scenarios -/

/-- Tree of `import * as ns from './b'`. -/
def astStarImportB : AST := [.importDecl "./b" (some ⟨false, some .namespaceB⟩)]

/-- Tree of `import * as ns from './a'`. -/
def astStarImportA : AST := [.importDecl "./a" (some ⟨false, some .namespaceB⟩)]

/-- Tree of `export const x = …`. -/
def astExportConstX : AST := [.exportedDecl true false (.varStmt [.ident "x"])]

/-- File system for C1/C3: `/a.ts` namespace-imports `./b`, `/b.ts` exports
`x`, `/c.ts` namespace-imports the nonexistent `./missing`. -/
def envStar : Env :=
  ⟨⟨[("/a.ts", astStarImportB), ("/b.ts", astExportConstX),
     ("/c.ts", [.importDecl "./missing" (some ⟨false, some .namespaceB⟩)])], []⟩, []⟩

/-- File system for C2: `/a.ts` contains `export { x as default }`. -/
def envAliasDefault : Env :=
  ⟨⟨[("/a.ts", [.exportDecl none (some (.named [(some "x", "default")]))])], []⟩, []⟩

/-- File system for C4: `/a.ts` contains `import { x } from './missing'`
and nothing at `/missing`. -/
def envMissingNamed : Env :=
  ⟨⟨[("/a.ts", [.importDecl "./missing" (some ⟨false, some (.named [(none, "x")])⟩)])], []⟩, []⟩

/-- File system for C5: `/f.ts` imports `{ t }` from `./g` and exports `s`;
`/g.ts` re-exports `{ s }` from `./f` and exports `t`. -/
def envMutualReexport : Env :=
  ⟨⟨[("/f.ts",
      [.importDecl "./g" (some ⟨false, some (.named [(none, "t")])⟩),
       .exportedDecl true false (.varStmt [.ident "s"])]),
     ("/g.ts",
      [.exportDecl (some "./f") (some (.named [(none, "s")])),
       .exportedDecl true false (.varStmt [.ident "t"])])], []⟩, []⟩

/-- File system for C8: the directory `/d` exists and contains only
`index.mjs`. -/
def fsIndexMjs : FSys := ⟨[("/d/index.mjs", [])], ["/d"]⟩

/-- File system for C9: two files that namespace-import each other. -/
def envStarCycle : Env :=
  ⟨⟨[("/a.ts", astStarImportB), ("/b.ts", astStarImportA)], []⟩, []⟩

/-- Graph for the C7 witness: `/a.ts` imports `x` from `/d.ts` and has its
own style import `/a.css`; `/d.ts` declares `x` and imports `/d.css`. -/
def gStyle : List (String × Result) :=
  [("/a.ts", ⟨[("/d.ts", ["x"])], none, [], ["/a.css"]⟩),
   ("/d.ts", ⟨[], none, ["x"], ["/d.css"]⟩)]

/-! ## Claim C1 -/

/-- The extraction result of `/a.ts` in `envStar`. -/
def rStarA : Result := ⟨[("/b.ts", ["x"])], none, [], []⟩

/-- The extraction result of `/b.ts` in `envStar`. -/
def rStarB : Result := ⟨[], none, ["x"], []⟩

/-- Claim C1: the extraction pass runs at most once per file per engine
instance, across bulk construction, on-demand analysis and export-surface
lookups.  FALSE on the code: building from `/a.ts` (which namespace-imports
`./b`) extracts `/b.ts` during the export-surface lookup — cached only in
`exportCache` — and then again in `analyzeFileRecursive`, which consults
only `depsGraph`; the extraction log records `/b.ts` twice. -/
theorem c1_extraction_pass_runs_twice :
    analyzeRec envStar 6 9 engine0 "/a.ts" [] =
      some ({ depsGraph := [("/a.ts", rStarA), ("/b.ts", rStarB)],
              exportCache := [("/b.ts", rStarB), ("/a.ts", rStarA)],
              analyzedFiles := ["/b.ts", "/a.ts"],
              alog := ["/a.ts", "/b.ts", "/b.ts"] },
            ["/a.ts", "/b.ts"]) ∧
    List.count "/b.ts" ["/a.ts", "/b.ts", "/b.ts"] = 2 := by
  exact ⟨rfl, by decide⟩

/-! ## Claim C3 -/

/-- Claim C3: a namespace import records the sentinel `"*"` (plus the
target's export set when analyzable, alone otherwise; an entry in both
cases).  FALSE on the code, which is the documented intent (`README`:
`import * as name` records the symbol `'*'`): the ledger entry for an
analyzable target carries only the target's export names, never `"*"`,
and an unanalyzable target gets no entry at all. -/
theorem c3_namespace_import_drops_star :
    ((analyzeFile envStar 9 engine0 "/a.ts").map
        (fun sv => sv.2.map Result.importM) = some (some [("/b.ts", ["x"])])) ∧
    "*" ∉ ["x"] ∧
    ((analyzeFile envStar 9 engine0 "/c.ts").map
        (fun sv => sv.2.map Result.importM) = some (some [])) := by
  exact ⟨rfl, by decide, rfl⟩

/-! ## Claim C2, counterexample -/

/-- The extraction result of `/a.ts` in `envAliasDefault`. -/
def rAliasDefault : Result := ⟨[], none, ["default"], []⟩

/-- Claim C2 as stated is false: extracting a file containing
`export { x as default }` puts the sentinel `"default"` into
`commonExport`. -/
theorem c2_counterexample :
    analyzeFile envAliasDefault 3 engine0 "/a.ts" =
      some ({ depsGraph := [], exportCache := [("/a.ts", rAliasDefault)],
              analyzedFiles := ["/a.ts"], alog := ["/a.ts"] },
            some rAliasDefault) ∧
    "default" ∈ rAliasDefault.commonExport := by
  exact ⟨rfl, by decide⟩

/-! ## Claim C4, counterexample -/

/-- Claim C4 as stated is false: `import { x } from './missing'` with no
file at `/missing` records the unresolved computed path `/missing` as
a ledger key (`resolveImportPath` falls back to the computed path
when `resolveFilePath` fails). -/
theorem c4_counterexample :
    ((analyzeFile envMissingNamed 3 engine0 "/a.ts").map
        (fun sv => sv.2.map Result.importM) =
      some (some [("/missing", ["x"])])) ∧
    resolveFilePath envMissingNamed.fs "/missing" = none := by
  exact ⟨rfl, by decide⟩

/-! ## Claim C5, counterexample -/

/-- The query run of C5's counterexample: build the graph from `/f.ts` of
`envMutualReexport`, then query `/f.ts`. -/
def c5run : Option (List String) :=
  ((analyzeRec envMutualReexport 6 6 engine0 "/f.ts" []).bind
    (fun sv => query envMutualReexport 6 6 30 sv.1 "/f.ts")).map Prod.snd

/-- Claim C5 as stated is false: `/g.ts` re-exports `s` from `/f.ts`, so
tracing `s` terminates at `/f.ts` and the queried file's own identity is
a member of its own result. -/
theorem c5_counterexample :
    c5run = some ["/g.ts", "/f.ts"] ∧ "/f.ts" ∈ ["/g.ts", "/f.ts"] := by
  exact ⟨rfl, by decide⟩

/-! ## Claim C8 -/

/-- Claim C8 as stated is false at its entry-probe half: for a directory
containing only `index.mjs`, the spec's seven-extension probe finds the
entry file but `findEntryFile` (which probes only `.ts, .tsx, .js, .jsx`)
does not. -/
theorem c8_counterexample :
    findEntryFile fsIndexMjs "/d" = none ∧
    specEntryProbe exts fsIndexMjs "/d" = some "/d/index.mjs" := by
  exact ⟨rfl, rfl⟩

theorem find?_append_first {p : String → Bool} (l₁ l₂ : List String) :
    (l₁ ++ l₂).find? p =
      match l₁.find? p with
      | some x => some x
      | none => l₂.find? p := by
  induction l₁ with
  | nil => simp
  | cons x rest ih =>
      cases h : p x with
      | true => simp [List.find?, h]
      | false => simp [List.find?, h, ih]

/-- Claim C8 (amended): `resolveFilePath` follows the spec's candidate
order exactly — the literal path as a regular file, the seven extensions
appended in order, then `index.<ext>` in the same order, first match
wins, no match yields `null` — while the Builder's entry-file probe
(`findEntryFile`) probes `index.<ext>` in the same order but over only
the first four extensions `.ts, .tsx, .js, .jsx`. -/
theorem c8_amended_resolution_order (fs : FSys) (p d : String) :
    resolveFilePath fs p = specCandidateResolve fs p ∧
    findEntryFile fs d = specEntryProbe entryExts fs d := by
  constructor
  · unfold resolveFilePath specCandidateResolve
    by_cases h : (fs.existsP p && fs.isFile p) = true
    · simp [h]
    · rw [if_neg h, if_neg h, find?_append_first,
        probeExtLoop_eq_find fs p exts, probeIndexLoop_eq_find fs p exts]
  · unfold findEntryFile specEntryProbe
    exact probeIndexLoop_eq_find fs d entryExts

/-! ## Claim C6 -/

theorem sadd_nil (x : String) : sadd [] x = [x] := rfl

/-- Characterisation of the tracer's ledger loop: the flag records whether
any edge carried the symbol, and the accumulated sources are the union of
the recursive traces over the carrying edges. -/
theorem traceLoop_char (g : List (String × Result)) (s : String)
    (v' : List String) :
    ∀ (es : List (String × List String)) (src : List String) (fnd : Bool),
      ((traceLoop g s v' es src fnd).2 =
        (fnd || es.any (fun e => e.2.contains s))) ∧
      (∀ x, x ∈ (traceLoop g s v' es src fnd).1 ↔
        x ∈ src ∨ ∃ e ∈ es, e.2.contains s = true ∧
          x ∈ traceSymbolSource g e.1 s v') := by
  intro es
  induction es with
  | nil =>
      intro src fnd
      constructor
      · simp [traceLoop]
      · intro x
        simp [traceLoop]
  | cons e rest ih =>
      intro src fnd
      obtain ⟨ip, syms⟩ := e
      by_cases hc : syms.contains s = true
      · simp only [traceLoop, hc, if_true]
        constructor
        · rw [(ih _ _).1]
          simp only [List.any_cons, hc, Bool.true_or, Bool.or_true, Bool.true_eq]
        · intro x
          rw [(ih _ _).2 x, sunion_mem]
          constructor
          · rintro ((hx | hx) | ⟨e', he', hc', hx⟩)
            · exact Or.inl hx
            · exact Or.inr ⟨(ip, syms), List.mem_cons_self _ _, hc, hx⟩
            · exact Or.inr ⟨e', List.mem_cons_of_mem _ he', hc', hx⟩
          · rintro (hx | ⟨e', he', hc', hx⟩)
            · exact Or.inl (Or.inl hx)
            · rcases List.mem_cons.mp he' with rfl | hm
              · exact Or.inl (Or.inr hx)
              · exact Or.inr ⟨e', hm, hc', hx⟩
      · have hc0 : syms.contains s = false := by
          cases h : syms.contains s
          · rfl
          · exact absurd h hc
        simp only [traceLoop, hc0, Bool.false_eq_true, if_false]
        constructor
        · rw [(ih _ _).1]
          have hs : (decide (s ∈ syms)) = false := by simpa using hc0
          simp [hs]
        · intro x
          rw [(ih _ _).2 x]
          constructor
          · rintro (hx | ⟨e', he', hc', hx⟩)
            · exact Or.inl hx
            · exact Or.inr ⟨e', List.mem_cons_of_mem _ he', hc', hx⟩
          · rintro (hx | ⟨e', he', hc', hx⟩)
            · exact Or.inl hx
            · rcases List.mem_cons.mp he' with rfl | hm
              · rw [hc'] at hc0
                exact absurd hc0 (by simp)
              · exact Or.inr ⟨e', hm, hc', hx⟩

/-- Claim C6: `traceOrigins(file, symbol, pathVisited)` returns the empty
set on a path revisit; `{file}` when the file is absent from the graph;
the empty set when the symbol is not on the file's export surface
(`defaultExport` non-null for `default`, `commonExport` membership
otherwise); otherwise the union of the recursive traces over every import
edge carrying the symbol, each given a copy of the enlarged visited set —
multiple origins united, never an error — and `{file}` when no edge
carries the symbol. -/
theorem c6_trace_origins_spec (g : List (String × Result)) (fp s : String)
    (v : List String) :
    (fp ∈ v → traceSymbolSource g fp s v = []) ∧
    (fp ∉ v → List.lookup fp g = none → traceSymbolSource g fp s v = [fp]) ∧
    (∀ info, fp ∉ v → List.lookup fp g = some info →
      (if s = "default" then info.defaultExport.isSome
       else info.commonExport.contains s) = false →
      traceSymbolSource g fp s v = []) ∧
    (∀ info, fp ∉ v → List.lookup fp g = some info →
      (if s = "default" then info.defaultExport.isSome
       else info.commonExport.contains s) = true →
      info.importM.any (fun e => e.2.contains s) = true →
      (∀ x, x ∈ traceSymbolSource g fp s v ↔
        ∃ e ∈ info.importM, e.2.contains s = true ∧
          x ∈ traceSymbolSource g e.1 s (sadd v fp))) ∧
    (∀ info, fp ∉ v → List.lookup fp g = some info →
      (if s = "default" then info.defaultExport.isSome
       else info.commonExport.contains s) = true →
      info.importM.any (fun e => e.2.contains s) = false →
      traceSymbolSource g fp s v = [fp]) := by
  refine ⟨?_, ?_, ?_, ?_, ?_⟩
  · intro h
    rw [traceSymbolSource_unfold]
    simp [h]
  · intro h hl
    rw [traceSymbolSource_unfold]
    simp [h, hl, sadd_nil]
  · intro info h hl hex
    rw [traceSymbolSource_unfold, if_neg h, hl]
    dsimp only
    rw [hex]
    simp
  · intro info h hl hex hany x
    rw [traceSymbolSource_unfold, if_neg h, hl]
    dsimp only
    rw [hex]
    simp only [if_true]
    have hchar := traceLoop_char g s (sadd v fp) info.importM [] false
    have hfnd : (traceLoop g s (sadd v fp) info.importM [] false).2 = true := by
      rw [hchar.1, Bool.false_or]
      exact hany
    rw [if_pos hfnd, hchar.2 x]
    constructor
    · rintro (h0 | hrest)
      · exact absurd h0 (List.not_mem_nil x)
      · exact hrest
    · exact fun hrest => Or.inr hrest
  · intro info h hl hex hany
    rw [traceSymbolSource_unfold, if_neg h, hl]
    dsimp only
    rw [hex]
    simp only [if_true]
    have hchar := traceLoop_char g s (sadd v fp) info.importM [] false
    have hfnd : (traceLoop g s (sadd v fp) info.importM [] false).2 = false := by
      rw [hchar.1, Bool.false_or]
      exact hany
    have hsrc : (traceLoop g s (sadd v fp) info.importM [] false).1 = [] := by
      rw [List.eq_nil_iff_forall_not_mem]
      intro x hx
      rcases (hchar.2 x).mp hx with hx0 | ⟨e, he, hc, _⟩
      · exact absurd hx0 (List.not_mem_nil x)
      · have hT : info.importM.any (fun e => e.2.contains s) = true :=
          List.any_eq_true.mpr ⟨e, he, hc⟩
        rw [hT] at hany
        exact Bool.noConfusion hany
    rw [hfnd]
    simp only [Bool.false_eq_true, if_false]
    rw [hsrc, sadd_nil]

/-- Witness for C6 at a concrete input: with an empty graph and an empty
visited path, a file absent from the graph is its own terminal origin. -/
theorem c6_trace_origins_spec_witness :
    traceSymbolSource [] "/w.ts" "x" [] = ["/w.ts"] :=
  (c6_trace_origins_spec [] "/w.ts" "x" []).2.1 (by decide) rfl

/-! ## Claim C7 -/

/-- Characterisation of the style-collection loop of `query`: its output
holds exactly the accumulator plus the `styleImports` of every
final-dependency file found in the graph. -/
theorem styleFold_mem (g : List (String × Result)) :
    ∀ (fds acc : List String) (x : String),
      x ∈ fds.foldl (fun acc d =>
          match List.lookup d g with
          | some r => sunion acc r.styleImports
          | none => acc) acc ↔
        x ∈ acc ∨ ∃ d ∈ fds, ∃ r, List.lookup d g = some r ∧ x ∈ r.styleImports := by
  intro fds
  induction fds with
  | nil =>
      intro acc x
      simp
  | cons d rest ih =>
      intro acc x
      simp only [List.foldl_cons]
      cases hl : List.lookup d g with
      | none =>
          rw [ih]
          constructor
          · rintro (hx | ⟨d', hd', r, hr, hx⟩)
            · exact Or.inl hx
            · exact Or.inr ⟨d', List.mem_cons_of_mem _ hd', r, hr, hx⟩
          · rintro (hx | ⟨d', hd', r, hr, hx⟩)
            · exact Or.inl hx
            · rcases List.mem_cons.mp hd' with rfl | hm
              · rw [hl] at hr
                exact Option.noConfusion hr
              · exact Or.inr ⟨d', hm, r, hr, hx⟩
      | some r0 =>
          rw [ih]
          constructor
          · rintro (hx | ⟨d', hd', r, hr, hx⟩)
            · rcases sunion_mem.mp hx with hxa | hxs
              · exact Or.inl hxa
              · exact Or.inr ⟨d, List.mem_cons_self _ _, r0, hl, hxs⟩
            · exact Or.inr ⟨d', List.mem_cons_of_mem _ hd', r, hr, hx⟩
          · rintro (hx | ⟨d', hd', r, hr, hx⟩)
            · exact Or.inl (sunion_mem.mpr (Or.inl hx))
            · rcases List.mem_cons.mp hd' with rfl | hm
              · rw [hl] at hr
                have hrr : r0 = r := Option.some.inj hr
                subst hrr
                exact Or.inl (sunion_mem.mpr (Or.inr hx))
              · exact Or.inr ⟨d', hm, r, hr, hx⟩

/-- Claim C7: after the closure stabilises, exactly the `styleImports` of
the file identities in the result set are unioned into the query result:
every member of the result is a traced origin or a style import of a
traced origin; a traced dependency's style imports are always included;
and when the queried file is not itself a traced origin, its own
style imports enter the result only through some other traced origin. -/
theorem c7_query_styles (g : List (String × Result)) (fuel : Nat)
    (p : String) (fds vis res : List String)
    (hrun : findAllDeps g fuel p ([], []) = some (fds, vis))
    (hres : queryPure g fuel p = some res) :
    (∀ x, x ∈ res ↔ x ∈ fds ∨ ∃ d ∈ fds, ∃ r, List.lookup d g = some r ∧
        x ∈ r.styleImports) ∧
    (∀ d r, d ∈ fds → List.lookup d g = some r →
      ∀ st ∈ r.styleImports, st ∈ res) ∧
    (p ∉ fds → ∀ st ∈ res, st ∈ fds ∨ ∃ d ∈ fds, d ≠ p ∧
        ∃ r, List.lookup d g = some r ∧ st ∈ r.styleImports) := by
  have hq : res = sunion fds (fds.foldl (fun acc d =>
      match List.lookup d g with
      | some r => sunion acc r.styleImports
      | none => acc) []) := by
    unfold queryPure at hres
    rw [hrun] at hres
    exact (Option.some.inj hres).symm
  subst hq
  have hmem : ∀ x, x ∈ sunion fds (fds.foldl (fun acc d =>
      match List.lookup d g with
      | some r => sunion acc r.styleImports
      | none => acc) []) ↔
      x ∈ fds ∨ ∃ d ∈ fds, ∃ r, List.lookup d g = some r ∧ x ∈ r.styleImports := by
    intro x
    rw [sunion_mem, styleFold_mem g fds [] x]
    constructor
    · rintro (hx | hx | hx)
      · exact Or.inl hx
      · exact absurd hx (List.not_mem_nil x)
      · exact Or.inr hx
    · rintro (hx | hx)
      · exact Or.inl hx
      · exact Or.inr (Or.inr hx)
  refine ⟨hmem, ?_, ?_⟩
  · intro d r hd hr st hst
    exact (hmem st).mpr (Or.inr ⟨d, hd, r, hr, hst⟩)
  · intro hp st hst
    rcases (hmem st).mp hst with hx | ⟨d, hd, r, hr, hx⟩
    · exact Or.inl hx
    · refine Or.inr ⟨d, hd, ?_, r, hr, hx⟩
      intro hdp
      exact hp (hdp ▸ hd)

/-- Witness for C7 at the concrete graph `gStyle`: the traced dependency's
style file `/d.css` is in the query result while the queried file's own
style import `/a.css` is not. -/
theorem c7_query_styles_witness :
    "/d.css" ∈ ["/d.ts", "/d.css"] ∧ "/a.css" ∉ ["/d.ts", "/d.css"] := by
  constructor
  · exact (c7_query_styles gStyle 20 "/a.ts" ["/d.ts"] ["/a.ts", "/d.ts"]
      ["/d.ts", "/d.css"] rfl rfl).2.1 "/d.ts" ⟨[], none, ["x"], ["/d.css"]⟩
      (by decide) rfl "/d.css" (by decide)
  · decide

/-! ## Claim C9 -/

theorem analyzeFile_step (env : Env) (n : Nat) (st : Engine) (p : String)
    (ast : AST) (h : List.lookup p env.fs.files = some ast) :
    analyzeFile env (n + 1) st p =
      match visitAST env n { st with alog := st.alog ++ [p] } ast emptyResult p with
      | none => none
      | some (st2, r) =>
          some ({ st2 with exportCache := cacheSet st2.exportCache p r,
                           analyzedFiles := sadd st2.analyzedFiles p }, some r) := by
  simp only [analyzeFile, h]

theorem getFileExports_step (env : Env) (n : Nat) (st : Engine) (p : String)
    (hc : st.exportCache = []) (hd : st.depsGraph = []) :
    getFileExports env (n + 1) st p =
      match resolveFilePath env.fs p with
      | none => some (st, none)
      | some actual => analyzeFile env n st actual := by
  simp only [getFileExports, hc, hd, List.lookup]

theorem handleNode_star_none (env : Env) (n : Nat) (st : Engine)
    (spec : String) (r : Result) (cur : String)
    (h1 : isStyleFile spec = false)
    (h2 : isLocalImportPath env.pathsMapping spec = true)
    (h3 : getFileExports env n st (resolveImportPath env cur spec) = none) :
    handleNode env (n + 1) st
      (.importDecl spec (some ⟨false, some .namespaceB⟩)) r cur = none := by
  simp only [handleNode, h1, h2, h3]
  simp

/-- In `envStarCycle` (two files that namespace-import each other) the
extraction recursion `analyzeFile ⇄ getFileExports` never completes from
either file while the caches are empty: every amount of fuel is
exhausted. -/
theorem starCycle_never_completes :
    ∀ fuel (st : Engine), st.exportCache = [] → st.depsGraph = [] →
      analyzeFile envStarCycle fuel st "/a.ts" = none ∧
      analyzeFile envStarCycle fuel st "/b.ts" = none ∧
      getFileExports envStarCycle fuel st "/a.ts" = none ∧
      getFileExports envStarCycle fuel st "/b.ts" = none ∧
      (∀ r, visitAST envStarCycle fuel st astStarImportB r "/a.ts" = none) ∧
      (∀ r, visitAST envStarCycle fuel st astStarImportA r "/b.ts" = none) ∧
      (∀ r, handleNode envStarCycle fuel st
        (.importDecl "./b" (some ⟨false, some .namespaceB⟩)) r "/a.ts" = none) ∧
      (∀ r, handleNode envStarCycle fuel st
        (.importDecl "./a" (some ⟨false, some .namespaceB⟩)) r "/b.ts" = none) := by
  intro fuel
  induction fuel with
  | zero =>
      intro st hc hd
      exact ⟨rfl, rfl, rfl, rfl, fun _ => rfl, fun _ => rfl, fun _ => rfl,
        fun _ => rfl⟩
  | succ n ih =>
      intro st hc hd
      have ihst := ih st hc hd
      refine ⟨?_, ?_, ?_, ?_, ?_, ?_, ?_, ?_⟩
      · rw [analyzeFile_step envStarCycle n st "/a.ts" astStarImportB rfl,
          (ih { st with alog := st.alog ++ ["/a.ts"] } hc hd).2.2.2.2.1 emptyResult]
      · rw [analyzeFile_step envStarCycle n st "/b.ts" astStarImportA rfl,
          (ih { st with alog := st.alog ++ ["/b.ts"] } hc hd).2.2.2.2.2.1 emptyResult]
      · rw [getFileExports_step envStarCycle n st "/a.ts" hc hd,
          show resolveFilePath envStarCycle.fs "/a.ts" = some "/a.ts" from rfl]
        exact ihst.1
      · rw [getFileExports_step envStarCycle n st "/b.ts" hc hd,
          show resolveFilePath envStarCycle.fs "/b.ts" = some "/b.ts" from rfl]
        exact ihst.2.1
      · intro r
        show visitAST envStarCycle (n + 1) st
          (Node.importDecl "./b" (some ⟨false, some .namespaceB⟩) :: []) r "/a.ts" = none
        rw [visitAST, ihst.2.2.2.2.2.2.1 r]
      · intro r
        show visitAST envStarCycle (n + 1) st
          (Node.importDecl "./a" (some ⟨false, some .namespaceB⟩) :: []) r "/b.ts" = none
        rw [visitAST, ihst.2.2.2.2.2.2.2 r]
      · intro r
        refine handleNode_star_none envStarCycle n st "./b" r "/a.ts" rfl rfl ?_
        rw [show resolveImportPath envStarCycle "/a.ts" "./b" = "/b.ts" from rfl]
        exact ihst.2.2.2.1
      · intro r
        refine handleNode_star_none envStarCycle n st "./a" r "/b.ts" rfl rfl ?_
        rw [show resolveImportPath envStarCycle "/b.ts" "./a" = "/a.ts" from rfl]
        exact ihst.2.2.1

theorem analyzeRec_nil_unanalyzed (env : Env) (n fa : Nat) (st : Engine)
    (p actual : String) (hres : resolveFilePath env.fs p = some actual)
    (hd : List.lookup actual st.depsGraph = none)
    (haf : analyzeFile env fa st actual = none) :
    analyzeRec env (n + 1) fa st p [] = none := by
  simp only [analyzeRec, hres, hd, haf]
  simp

/-- Claim C9: recursive graph construction and provenance tracing both
terminate for every mutually importing file pair.  FALSE on the code for
namespace-import cycles (while the documented intent — README: circular
dependencies are handled and every file is analysed once — matches the
claim): building either file of `envStarCycle` recurses forever through
`getFileExports`/`analyzeFile`, because the export cache is only written
after an extraction pass completes; no amount of fuel finishes the run in
either direction. -/
theorem c9_star_cycle_construction_diverges :
    ∀ fr fa, analyzeRec envStarCycle fr fa engine0 "/a.ts" [] = none ∧
             analyzeRec envStarCycle fr fa engine0 "/b.ts" [] = none := by
  intro fr fa
  cases fr with
  | zero => exact ⟨rfl, rfl⟩
  | succ n =>
      constructor
      · exact analyzeRec_nil_unanalyzed envStarCycle n fa engine0 "/a.ts" "/a.ts"
          rfl rfl (starCycle_never_completes fa engine0 rfl rfl).1
      · exact analyzeRec_nil_unanalyzed envStarCycle n fa engine0 "/b.ts" "/b.ts"
          rfl rfl (starCycle_never_completes fa engine0 rfl rfl).2.1

/-! ## Claim C4, amended -/

theorem mapAdd_keys :
    ∀ (m : List (String × List String)) (k : String) (syms : List String)
      (q : String), q ∈ (mapAdd m k syms).map Prod.fst →
        q ∈ m.map Prod.fst ∨ q = k := by
  intro m k syms
  induction m with
  | nil =>
      intro q h
      simp [mapAdd] at h
      exact Or.inr h
  | cons x rest ih =>
      intro q h
      obtain ⟨k', v⟩ := x
      by_cases he : k' = k
      · simp only [mapAdd, if_pos he, List.map_cons, List.mem_cons] at h
        rcases h with rfl | h
        · exact Or.inr rfl
        · exact Or.inl (by simp only [List.map_cons, List.mem_cons]; exact Or.inr h)
      · simp only [mapAdd, if_neg he, List.map_cons, List.mem_cons] at h
        rcases h with rfl | h
        · exact Or.inl (by simp)
        · rcases ih q h with h' | h'
          · exact Or.inl (by simp only [List.map_cons, List.mem_cons]; exact Or.inr h')
          · exact Or.inr h'

theorem handleExportAssign_importM (i : Bool) (e : ExportAssignExpr) (r : Result) :
    (handleExportAssign i e r).importM = r.importM := by
  cases i <;> cases e <;> rfl

theorem handleExportedDecl_importM (he hd : Bool) (d : DeclKind) (r : Result) :
    (handleExportedDecl he hd d r).importM = r.importM := by
  cases he with
  | false => rfl
  | true =>
      cases hd with
      | true => cases d <;> rfl
      | false =>
          cases d with
          | funcDecl n => cases n <;> rfl
          | classDecl n => cases n <;> rfl
          | interfaceDecl s => rfl
          | typeAliasDecl s => rfl
          | enumDecl s => rfl
          | moduleDecl n => cases n <;> rfl
          | varStmt ds => rfl
          | otherDecl => rfl

theorem ite_pair_some {c : Prop} [Decidable c] {α β : Type} {s1 s2 st' : α}
    {a b r' : β}
    (h : (if c then some (s1, a) else some (s2, b)) = some (st', r')) :
    r' = a ∨ r' = b := by
  by_cases hc : c
  · rw [if_pos hc] at h
    exact Or.inl (congrArg Prod.snd (Option.some.inj h)).symm
  · rw [if_neg hc] at h
    exact Or.inr (congrArg Prod.snd (Option.some.inj h)).symm

theorem keys_of_ite_result {c : Prop} [Decidable c] {A B : Result} {k : String}
    (h : k ∈ ((if c then A else B).importM).map Prod.fst) :
    k ∈ A.importM.map Prod.fst ∨ k ∈ B.importM.map Prod.fst := by
  by_cases hc : c
  · rw [if_pos hc] at h
    exact Or.inl h
  · rw [if_neg hc] at h
    exact Or.inr h

/-- Every import-ledger key produced by the extraction pass is the
resolution of some specifier that was classified local; the four
conjuncts follow the call structure of the pass. -/
theorem extraction_keys_local (env : Env) :
    ∀ fuel,
      (∀ st p st' r, analyzeFile env fuel st p = some (st', some r) →
        ∀ k ∈ r.importM.map Prod.fst, ∃ sp,
          isLocalImportPath env.pathsMapping sp = true ∧
          k = resolveImportPath env p sp) ∧
      (∀ st nodes r cur st' r', visitAST env fuel st nodes r cur = some (st', r') →
        ∀ k ∈ r'.importM.map Prod.fst, k ∈ r.importM.map Prod.fst ∨ ∃ sp,
          isLocalImportPath env.pathsMapping sp = true ∧
          k = resolveImportPath env cur sp) ∧
      (∀ st nd r cur st' r', handleNode env fuel st nd r cur = some (st', r') →
        ∀ k ∈ r'.importM.map Prod.fst, k ∈ r.importM.map Prod.fst ∨ ∃ sp,
          isLocalImportPath env.pathsMapping sp = true ∧
          k = resolveImportPath env cur sp) ∧
      (∀ st spec r cur st' r', handleFullImport env fuel st spec r cur = some (st', r') →
        ∀ k ∈ r'.importM.map Prod.fst, k ∈ r.importM.map Prod.fst ∨ ∃ sp,
          isLocalImportPath env.pathsMapping sp = true ∧
          k = resolveImportPath env cur sp) := by
  intro fuel
  induction fuel with
  | zero =>
      refine ⟨?_, ?_, ?_, ?_⟩
      · intro st p st' r h
        simp [analyzeFile] at h
      · intro st nodes r cur st' r' h
        simp [visitAST] at h
      · intro st nd r cur st' r' h
        simp [handleNode] at h
      · intro st spec r cur st' r' h
        simp [handleFullImport] at h
  | succ n ih =>
      obtain ⟨ihA, ihV, ihN, ihF⟩ := ih
      refine ⟨?_, ?_, ?_, ?_⟩
      · intro st p st' r h
        simp only [analyzeFile] at h
        cases hl : List.lookup p env.fs.files with
        | none =>
            rw [hl] at h
            simp at h
        | some ast =>
            rw [hl] at h
            dsimp only at h
            cases hv : visitAST env n { st with alog := st.alog ++ [p] } ast
                emptyResult p with
            | none =>
                rw [hv] at h
                simp at h
            | some pr =>
                obtain ⟨st2, r2⟩ := pr
                rw [hv] at h
                simp only [Option.some.injEq, Prod.mk.injEq] at h
                obtain ⟨h1, h2⟩ := h
                subst h2
                intro k hk
                rcases ihV _ ast emptyResult p st2 r2 hv k hk with h0 | h0
                · exact absurd h0 (by simp [emptyResult])
                · exact h0
      · intro st nodes r cur st' r' h
        cases nodes with
        | nil =>
            simp only [visitAST, Option.some.injEq, Prod.mk.injEq] at h
            obtain ⟨h1, h2⟩ := h
            subst h2
            intro k hk
            exact Or.inl hk
        | cons nd rest =>
            simp only [visitAST] at h
            cases hn : handleNode env n st nd r cur with
            | none =>
                rw [hn] at h
                simp at h
            | some pr =>
                obtain ⟨st1, r1⟩ := pr
                rw [hn] at h
                intro k hk
                rcases ihV st1 rest r1 cur st' r' h k hk with h0 | h0
                · exact ihN st nd r cur st1 r1 hn k h0
                · exact Or.inr h0
      · intro st nd r cur st' r' h
        cases nd with
        | importEquals spec =>
            simp only [handleNode] at h
            exact ihF st spec r cur st' r' h
        | dynamicImport spec =>
            simp only [handleNode] at h
            exact ihF st spec r cur st' r' h
        | requireCall spec =>
            simp only [handleNode] at h
            exact ihF st spec r cur st' r' h
        | exportAssign i e =>
            simp only [handleNode, Option.some.injEq, Prod.mk.injEq] at h
            obtain ⟨h1, h2⟩ := h
            subst h2
            intro k hk
            rw [handleExportAssign_importM] at hk
            exact Or.inl hk
        | exportedDecl hex hdef d =>
            simp only [handleNode, Option.some.injEq, Prod.mk.injEq] at h
            obtain ⟨h1, h2⟩ := h
            subst h2
            intro k hk
            rw [handleExportedDecl_importM] at hk
            exact Or.inl hk
        | importDecl spec clause =>
            simp only [handleNode] at h
            by_cases hsty : isStyleFile spec = true
            · rw [if_pos hsty] at h
              cases hrs : resolveStylePath env cur spec with
              | some sp =>
                  rw [hrs] at h
                  simp only [Option.some.injEq, Prod.mk.injEq] at h
                  obtain ⟨h1, h2⟩ := h
                  subst h2
                  intro k hk
                  exact Or.inl hk
              | none =>
                  rw [hrs] at h
                  simp only [Option.some.injEq, Prod.mk.injEq] at h
                  obtain ⟨h1, h2⟩ := h
                  subst h2
                  intro k hk
                  exact Or.inl hk
            · rw [if_neg hsty] at h
              by_cases hloc : isLocalImportPath env.pathsMapping spec = true
              · rw [if_pos hloc] at h
                cases clause with
                | none =>
                    simp only [Option.some.injEq, Prod.mk.injEq] at h
                    obtain ⟨h1, h2⟩ := h
                    subst h2
                    intro k hk
                    rcases mapAdd_keys _ _ _ _ hk with h0 | rfl
                    · exact Or.inl h0
                    · exact Or.inr ⟨spec, hloc, rfl⟩
                | some c =>
                    obtain ⟨cd, cb⟩ := c
                    cases cb with
                    | none =>
                        dsimp only at h
                        rcases ite_pair_some h with hr | hr <;> subst hr
                        · intro k hk
                          rcases mapAdd_keys _ _ _ _ hk with h0 | rfl
                          · exact Or.inl h0
                          · exact Or.inr ⟨spec, hloc, rfl⟩
                        · intro k hk
                          exact Or.inl hk
                    | some nb =>
                        cases nb with
                        | named elems =>
                            dsimp only at h
                            rcases ite_pair_some h with hr | hr <;> subst hr
                            · intro k hk
                              rcases mapAdd_keys _ _ _ _ hk with h0 | rfl
                              · exact Or.inl h0
                              · exact Or.inr ⟨spec, hloc, rfl⟩
                            · intro k hk
                              exact Or.inl hk
                        | namespaceB =>
                            dsimp only at h
                            cases hg : getFileExports env n st
                                (resolveImportPath env cur spec) with
                            | none =>
                                rw [hg] at h
                                simp at h
                            | some pr =>
                                obtain ⟨st1, te⟩ := pr
                                rw [hg] at h
                                dsimp only at h
                                rcases ite_pair_some h with hr | hr <;> subst hr
                                · intro k hk
                                  rcases mapAdd_keys _ _ _ _ hk with h0 | rfl
                                  · exact Or.inl h0
                                  · exact Or.inr ⟨spec, hloc, rfl⟩
                                · intro k hk
                                  exact Or.inl hk
              · rw [if_neg hloc] at h
                simp only [Option.some.injEq, Prod.mk.injEq] at h
                obtain ⟨h1, h2⟩ := h
                subst h2
                intro k hk
                exact Or.inl hk
        | exportDecl specOpt clause =>
            simp only [handleNode] at h
            cases specOpt with
            | none =>
                dsimp only at h
                cases clause with
                | none =>
                    simp only [Option.some.injEq, Prod.mk.injEq] at h
                    obtain ⟨h1, h2⟩ := h
                    subst h2
                    intro k hk
                    exact Or.inl hk
                | some ec =>
                    cases ec with
                    | named elems =>
                        dsimp only at h
                        simp only [Option.some.injEq, Prod.mk.injEq] at h
                        obtain ⟨h1, h2⟩ := h
                        subst h2
                        intro k hk
                        exact Or.inl hk
                    | star ns =>
                        dsimp only at h
                        simp only [Option.some.injEq, Prod.mk.injEq] at h
                        obtain ⟨h1, h2⟩ := h
                        subst h2
                        intro k hk
                        exact Or.inl hk
            | some spec =>
                dsimp only at h
                by_cases hloc : isLocalImportPath env.pathsMapping spec = true
                · rw [if_pos hloc] at h
                  cases clause with
                  | some ec =>
                      cases ec with
                      | named elems =>
                          dsimp only at h
                          simp only [Option.some.injEq, Prod.mk.injEq] at h
                          obtain ⟨h1, h2⟩ := h
                          subst h2
                          intro k hk
                          rcases keys_of_ite_result hk with h0 | h0
                          · rcases mapAdd_keys _ _ _ _ h0 with h1' | rfl
                            · exact Or.inl h1'
                            · exact Or.inr ⟨spec, hloc, rfl⟩
                          · exact Or.inl h0
                      | star ns =>
                          dsimp only at h
                          cases hg : getFileExports env n st
                              (resolveImportPath env cur spec) with
                          | none =>
                              rw [hg] at h
                              simp at h
                          | some pr =>
                              obtain ⟨st1, te⟩ := pr
                              rw [hg] at h
                              cases te with
                              | none =>
                                  dsimp only at h
                                  simp only [Option.some.injEq, Prod.mk.injEq] at h
                                  obtain ⟨h1, h2⟩ := h
                                  subst h2
                                  intro k hk
                                  exact Or.inl hk
                              | some t =>
                                  dsimp only at h
                                  simp only [Option.some.injEq, Prod.mk.injEq] at h
                                  obtain ⟨h1, h2⟩ := h
                                  subst h2
                                  intro k hk
                                  rcases keys_of_ite_result hk with h0 | h0
                                  · rcases mapAdd_keys _ _ _ _ h0 with h1' | rfl
                                    · exact Or.inl h1'
                                    · exact Or.inr ⟨spec, hloc, rfl⟩
                                  · exact Or.inl h0
                  | none =>
                      dsimp only at h
                      cases hg : getFileExports env n st
                          (resolveImportPath env cur spec) with
                      | none =>
                          rw [hg] at h
                          simp at h
                      | some pr =>
                          obtain ⟨st1, te⟩ := pr
                          rw [hg] at h
                          cases te with
                          | none =>
                              dsimp only at h
                              simp only [Option.some.injEq, Prod.mk.injEq] at h
                              obtain ⟨h1, h2⟩ := h
                              subst h2
                              intro k hk
                              exact Or.inl hk
                          | some t =>
                              dsimp only at h
                              simp only [Option.some.injEq, Prod.mk.injEq] at h
                              obtain ⟨h1, h2⟩ := h
                              subst h2
                              intro k hk
                              rcases keys_of_ite_result hk with h0 | h0
                              · rcases mapAdd_keys _ _ _ _ h0 with h1' | rfl
                                · exact Or.inl h1'
                                · exact Or.inr ⟨spec, hloc, rfl⟩
                              · exact Or.inl h0
                · rw [if_neg hloc] at h
                  simp only [Option.some.injEq, Prod.mk.injEq] at h
                  obtain ⟨h1, h2⟩ := h
                  subst h2
                  intro k hk
                  exact Or.inl hk
      · intro st spec r cur st' r' h
        simp only [handleFullImport] at h
        by_cases hsty : isStyleFile spec = true
        · rw [if_pos hsty] at h
          cases hrs : resolveStylePath env cur spec with
          | some sp =>
              rw [hrs] at h
              simp only [Option.some.injEq, Prod.mk.injEq] at h
              obtain ⟨h1, h2⟩ := h
              subst h2
              intro k hk
              exact Or.inl hk
          | none =>
              rw [hrs] at h
              simp only [Option.some.injEq, Prod.mk.injEq] at h
              obtain ⟨h1, h2⟩ := h
              subst h2
              intro k hk
              exact Or.inl hk
        · rw [if_neg hsty] at h
          by_cases hloc : isLocalImportPath env.pathsMapping spec = true
          · rw [if_pos hloc] at h
            cases hg : getFileExports env n st (resolveImportPath env cur spec) with
            | none =>
                rw [hg] at h
                simp at h
            | some pr =>
                obtain ⟨st1, te⟩ := pr
                rw [hg] at h
                dsimp only at h
                rcases ite_pair_some h with hr | hr <;> subst hr
                · intro k hk
                  rcases mapAdd_keys _ _ _ _ hk with h0 | rfl
                  · exact Or.inl h0
                  · exact Or.inr ⟨spec, hloc, rfl⟩
                · intro k hk
                  exact Or.inl hk
          · rw [if_neg hloc] at h
            simp only [Option.some.injEq, Prod.mk.injEq] at h
            obtain ⟨h1, h2⟩ := h
            subst h2
            intro k hk
            exact Or.inl hk

/-- Claim C4 (amended): every import-ledger key of an extraction result is
the resolution of a specifier classified local (relative or alias); an
external specifier is never recorded, while a non-resolving local
specifier is recorded under the fallback path `resolveImportPath`
computes for it. -/
theorem c4_amended_import_keys_local (env : Env) (fuel : Nat) (st : Engine)
    (p : String) (st' : Engine) (r : Result)
    (h : analyzeFile env fuel st p = some (st', some r)) :
    ∀ k ∈ r.importM.map Prod.fst, ∃ sp,
      isLocalImportPath env.pathsMapping sp = true ∧
      k = resolveImportPath env p sp :=
  (extraction_keys_local env fuel).1 st p st' r h

/-- Witness for C4 (amended) at the `envMissingNamed` run: the recorded key
`/missing` is the fallback resolution of the local specifier
`./missing`. -/
theorem c4_amended_import_keys_local_witness :
    ∃ sp, isLocalImportPath envMissingNamed.pathsMapping sp = true ∧
      "/missing" = resolveImportPath envMissingNamed "/a.ts" sp :=
  c4_amended_import_keys_local envMissingNamed 3 engine0 "/a.ts" _ _ rfl
    "/missing" (by decide)

/-! ## Claim C2, amended -/

/-- Syntactic condition on a recognised declaration: no declared or
destructured name is the literal `default`. -/
def declOK : DeclKind → Bool
  | .funcDecl (some s) => !(s == "default")
  | .funcDecl none => true
  | .classDecl (some s) => !(s == "default")
  | .classDecl none => true
  | .interfaceDecl s => !(s == "default")
  | .typeAliasDecl s => !(s == "default")
  | .enumDecl s => !(s == "default")
  | .moduleDecl (some s) => !(s == "default")
  | .moduleDecl none => true
  | .varStmt ds => ds.all (fun b => (bindingLeaves b).all (fun x => !(x == "default")))
  | .otherDecl => true

/-- Syntactic condition on a node: no export clause element, namespace
re-export name or exported declaration binds the name `default`. -/
def nodeOK : Node → Bool
  | .exportDecl _ (some (.named elems)) => elems.all (fun e => !(e.2 == "default"))
  | .exportDecl _ (some (.star ns)) => !(ns == "default")
  | .exportedDecl _ _ d => declOK d
  | _ => true

/-- Syntactic condition on a whole tree. -/
def astOK (a : AST) : Bool := a.all nodeOK

/-- A `Result` whose named export surface avoids the sentinel. -/
abbrev resOK (r : Result) : Prop := "default" ∉ r.commonExport

/-- Engine state whose cached results all avoid the sentinel. -/
abbrev stOK (st : Engine) : Prop :=
  (∀ pr ∈ st.exportCache, resOK pr.2) ∧ (∀ pr ∈ st.depsGraph, resOK pr.2)

/-- File system whose trees all satisfy the syntactic condition. -/
abbrev envOK (env : Env) : Prop := ∀ pa ∈ env.fs.files, astOK pa.2 = true

theorem ne_of_bnot_beq {a b : String} (h : (!(a == b)) = true) : a ≠ b := by
  intro he
  subst he
  simp at h

theorem cacheSet_mem {β : Type} :
    ∀ (m : List (String × β)) (k : String) (v : β) (pr : String × β),
      pr ∈ cacheSet m k v → pr ∈ m ∨ pr = (k, v) := by
  intro m k v
  induction m with
  | nil =>
      intro pr h
      simp [cacheSet] at h
      exact Or.inr h
  | cons x rest ih =>
      intro pr h
      obtain ⟨k', v'⟩ := x
      by_cases he : k' = k
      · simp only [cacheSet, if_pos he, List.mem_cons] at h
        rcases h with rfl | h
        · exact Or.inr rfl
        · exact Or.inl (List.mem_cons_of_mem _ h)
      · simp only [cacheSet, if_neg he, List.mem_cons] at h
        rcases h with rfl | h
        · exact Or.inl (List.mem_cons_self _ _)
        · rcases ih pr h with h' | h'
          · exact Or.inl (List.mem_cons_of_mem _ h')
          · exact Or.inr h'

theorem foldl_sadd_f_mem {α : Type} (f : α → String) :
    ∀ (l : List α) (acc : List String) (x : String),
      x ∈ l.foldl (fun acc e => sadd acc (f e)) acc ↔
        x ∈ acc ∨ ∃ e ∈ l, x = f e := by
  intro l
  induction l with
  | nil =>
      intro acc x
      simp
  | cons e rest ih =>
      intro acc x
      simp only [List.foldl_cons]
      rw [ih, sadd_mem]
      constructor
      · rintro ((hx | hx) | ⟨e', he', hx⟩)
        · exact Or.inl hx
        · exact Or.inr ⟨e, List.mem_cons_self _ _, hx⟩
        · exact Or.inr ⟨e', List.mem_cons_of_mem _ he', hx⟩
      · rintro (hx | ⟨e', he', hx⟩)
        · exact Or.inl (Or.inl hx)
        · rcases List.mem_cons.mp he' with rfl | hm
          · exact Or.inl (Or.inr hx)
          · exact Or.inr ⟨e', hm, hx⟩

theorem foldl_sunion_f_mem {α : Type} (f : α → List String) :
    ∀ (l : List α) (acc : List String) (x : String),
      x ∈ l.foldl (fun acc e => sunion acc (f e)) acc ↔
        x ∈ acc ∨ ∃ e ∈ l, x ∈ f e := by
  intro l
  induction l with
  | nil =>
      intro acc x
      simp
  | cons e rest ih =>
      intro acc x
      simp only [List.foldl_cons]
      rw [ih, sunion_mem]
      constructor
      · rintro ((hx | hx) | ⟨e', he', hx⟩)
        · exact Or.inl hx
        · exact Or.inr ⟨e, List.mem_cons_self _ _, hx⟩
        · exact Or.inr ⟨e', List.mem_cons_of_mem _ he', hx⟩
      · rintro (hx | ⟨e', he', hx⟩)
        · exact Or.inl (Or.inl hx)
        · rcases List.mem_cons.mp he' with rfl | hm
          · exact Or.inl (Or.inr hx)
          · exact Or.inr ⟨e', hm, hx⟩

theorem handleExportAssign_commonExport (i : Bool) (e : ExportAssignExpr)
    (r : Result) : (handleExportAssign i e r).commonExport = r.commonExport := by
  cases i <;> cases e <;> rfl

theorem handleExportedDecl_no_default {he hd : Bool} {d : DeclKind} {r : Result}
    (hok : declOK d = true) (hr : resOK r) :
    resOK (handleExportedDecl he hd d r) := by
  cases he with
  | false => exact hr
  | true =>
      cases hd with
      | true => cases d <;> exact hr
      | false =>
          cases d with
          | funcDecl n =>
              cases n with
              | none => exact hr
              | some s =>
                  intro hm
                  rcases sadd_mem.mp hm with hm' | rfl
                  · exact hr hm'
                  · simp [declOK] at hok
          | classDecl n =>
              cases n with
              | none => exact hr
              | some s =>
                  intro hm
                  rcases sadd_mem.mp hm with hm' | rfl
                  · exact hr hm'
                  · simp [declOK] at hok
          | interfaceDecl s =>
              intro hm
              rcases sadd_mem.mp hm with hm' | rfl
              · exact hr hm'
              · simp [declOK] at hok
          | typeAliasDecl s =>
              intro hm
              rcases sadd_mem.mp hm with hm' | rfl
              · exact hr hm'
              · simp [declOK] at hok
          | enumDecl s =>
              intro hm
              rcases sadd_mem.mp hm with hm' | rfl
              · exact hr hm'
              · simp [declOK] at hok
          | moduleDecl n =>
              cases n with
              | none => exact hr
              | some s =>
                  intro hm
                  rcases sadd_mem.mp hm with hm' | rfl
                  · exact hr hm'
                  · simp [declOK] at hok
          | varStmt ds =>
              intro hm
              rcases (foldl_sunion_f_mem bindingLeaves ds r.commonExport
                  "default").mp hm with hm' | ⟨b, hb, hx⟩
              · exact hr hm'
              · have h1 := List.all_eq_true.mp hok b hb
                have h2 := List.all_eq_true.mp h1 "default" hx
                simp at h2
          | otherDecl => exact hr

theorem resOK_ite {c : Prop} [Decidable c] {A B : Result}
    (hA : resOK A) (hB : resOK B) : resOK (if c then A else B) := by
  by_cases hc : c
  · rw [if_pos hc]
    exact hA
  · rw [if_neg hc]
    exact hB

theorem mem_commonExport_ite {c : Prop} [Decidable c] {A B : Result} {x : String}
    (h : x ∈ (if c then A else B).commonExport) :
    x ∈ A.commonExport ∨ x ∈ B.commonExport := by
  by_cases hc : c
  · rw [if_pos hc] at h
    exact Or.inl h
  · rw [if_neg hc] at h
    exact Or.inr h

/-- Under the syntactic condition on every tree of the file system, the
extraction pass never puts the sentinel `default` into any
`commonExport`, neither in its returned `Result` nor in any cached one;
the five conjuncts follow the call structure of the pass. -/
theorem extraction_no_default (env : Env) (henv : envOK env) :
    ∀ fuel,
      (∀ st p st' ro, stOK st → analyzeFile env fuel st p = some (st', ro) →
        stOK st' ∧ ∀ rr, ro = some rr → resOK rr) ∧
      (∀ st p st' ro, stOK st → getFileExports env fuel st p = some (st', ro) →
        stOK st' ∧ ∀ rr, ro = some rr → resOK rr) ∧
      (∀ st nodes r cur st' r', stOK st → resOK r → astOK nodes = true →
        visitAST env fuel st nodes r cur = some (st', r') → stOK st' ∧ resOK r') ∧
      (∀ st nd r cur st' r', stOK st → resOK r → nodeOK nd = true →
        handleNode env fuel st nd r cur = some (st', r') → stOK st' ∧ resOK r') ∧
      (∀ st spec r cur st' r', stOK st → resOK r →
        handleFullImport env fuel st spec r cur = some (st', r') →
        stOK st' ∧ resOK r') := by
  intro fuel
  induction fuel with
  | zero =>
      refine ⟨?_, ?_, ?_, ?_, ?_⟩
      · intro st p st' ro _ h
        simp [analyzeFile] at h
      · intro st p st' ro _ h
        simp [getFileExports] at h
      · intro st nodes r cur st' r' _ _ _ h
        simp [visitAST] at h
      · intro st nd r cur st' r' _ _ _ h
        simp [handleNode] at h
      · intro st spec r cur st' r' _ _ h
        simp [handleFullImport] at h
  | succ n ih =>
      obtain ⟨ihA, ihG, ihV, ihN, ihF⟩ := ih
      refine ⟨?_, ?_, ?_, ?_, ?_⟩
      · intro st p st' ro hst h
        simp only [analyzeFile] at h
        cases hl : List.lookup p env.fs.files with
        | none =>
            rw [hl] at h
            simp only [Option.some.injEq, Prod.mk.injEq] at h
            obtain ⟨h1, h2⟩ := h
            subst h1
            refine ⟨hst, ?_⟩
            intro rr hrr
            rw [← h2] at hrr
            exact absurd hrr (by simp)
        | some ast =>
            have hastOK : astOK ast = true := henv (p, ast) (lookup_pair_mem hl)
            rw [hl] at h
            dsimp only at h
            cases hv : visitAST env n { st with alog := st.alog ++ [p] } ast
                emptyResult p with
            | none =>
                rw [hv] at h
                simp at h
            | some pr =>
                obtain ⟨st2, r2⟩ := pr
                rw [hv] at h
                simp only [Option.some.injEq, Prod.mk.injEq] at h
                obtain ⟨h1, h2⟩ := h
                have hvv := ihV { st with alog := st.alog ++ [p] } ast emptyResult
                  p st2 r2 hst (by simp [resOK, emptyResult]) hastOK hv
                subst h1
                refine ⟨⟨?_, ?_⟩, ?_⟩
                · intro pr hpr
                  rcases cacheSet_mem _ _ _ _ hpr with hm | rfl
                  · exact hvv.1.1 pr hm
                  · exact hvv.2
                · intro pr hpr
                  exact hvv.1.2 pr hpr
                · intro rr hrr
                  rw [← h2] at hrr
                  have := Option.some.inj hrr
                  subst this
                  exact hvv.2
      · intro st p st' ro hst h
        simp only [getFileExports] at h
        cases hc : List.lookup p st.exportCache with
        | some rr0 =>
            rw [hc] at h
            simp only [Option.some.injEq, Prod.mk.injEq] at h
            obtain ⟨h1, h2⟩ := h
            subst h1
            refine ⟨hst, ?_⟩
            intro rr hrr
            rw [← h2] at hrr
            have := Option.some.inj hrr
            subst this
            exact hst.1 (p, rr0) (lookup_pair_mem hc)
        | none =>
            rw [hc] at h
            dsimp only at h
            cases hd : List.lookup p st.depsGraph with
            | some rr0 =>
                rw [hd] at h
                simp only [Option.some.injEq, Prod.mk.injEq] at h
                obtain ⟨h1, h2⟩ := h
                subst h1
                refine ⟨hst, ?_⟩
                intro rr hrr
                rw [← h2] at hrr
                have := Option.some.inj hrr
                subst this
                exact hst.2 (p, rr0) (lookup_pair_mem hd)
            | none =>
                rw [hd] at h
                dsimp only at h
                cases hr : resolveFilePath env.fs p with
                | none =>
                    rw [hr] at h
                    simp only [Option.some.injEq, Prod.mk.injEq] at h
                    obtain ⟨h1, h2⟩ := h
                    subst h1
                    refine ⟨hst, ?_⟩
                    intro rr hrr
                    rw [← h2] at hrr
                    exact absurd hrr (by simp)
                | some actual =>
                    rw [hr] at h
                    exact ihA st actual st' ro hst h
      · intro st nodes r cur st' r' hst hres hAok h
        cases nodes with
        | nil =>
            simp only [visitAST, Option.some.injEq, Prod.mk.injEq] at h
            obtain ⟨h1, h2⟩ := h
            subst h1
            subst h2
            exact ⟨hst, hres⟩
        | cons nd rest =>
            simp only [astOK, List.all_cons, Bool.and_eq_true] at hAok
            simp only [visitAST] at h
            cases hn : handleNode env n st nd r cur with
            | none =>
                rw [hn] at h
                simp at h
            | some pr =>
                obtain ⟨st1, r1⟩ := pr
                rw [hn] at h
                have h1 := ihN st nd r cur st1 r1 hst hres hAok.1 hn
                exact ihV st1 rest r1 cur st' r' h1.1 h1.2 hAok.2 h
      · intro st nd r cur st' r' hst hres hNok h
        cases nd with
        | importEquals spec =>
            simp only [handleNode] at h
            exact ihF st spec r cur st' r' hst hres h
        | dynamicImport spec =>
            simp only [handleNode] at h
            exact ihF st spec r cur st' r' hst hres h
        | requireCall spec =>
            simp only [handleNode] at h
            exact ihF st spec r cur st' r' hst hres h
        | exportAssign i e =>
            simp only [handleNode, Option.some.injEq, Prod.mk.injEq] at h
            obtain ⟨h1, h2⟩ := h
            subst h1
            subst h2
            refine ⟨hst, ?_⟩
            show resOK (handleExportAssign i e r)
            unfold resOK
            rw [handleExportAssign_commonExport]
            exact hres
        | exportedDecl hex hdef d =>
            simp only [handleNode, Option.some.injEq, Prod.mk.injEq] at h
            obtain ⟨h1, h2⟩ := h
            subst h1
            subst h2
            exact ⟨hst, handleExportedDecl_no_default hNok hres⟩
        | importDecl spec clause =>
            simp only [handleNode] at h
            by_cases hsty : isStyleFile spec = true
            · rw [if_pos hsty] at h
              cases hrs : resolveStylePath env cur spec with
              | some sp =>
                  rw [hrs] at h
                  simp only [Option.some.injEq, Prod.mk.injEq] at h
                  obtain ⟨h1, h2⟩ := h
                  subst h1
                  subst h2
                  exact ⟨hst, hres⟩
              | none =>
                  rw [hrs] at h
                  simp only [Option.some.injEq, Prod.mk.injEq] at h
                  obtain ⟨h1, h2⟩ := h
                  subst h1
                  subst h2
                  exact ⟨hst, hres⟩
            · rw [if_neg hsty] at h
              by_cases hloc : isLocalImportPath env.pathsMapping spec = true
              · rw [if_pos hloc] at h
                cases clause with
                | none =>
                    simp only [Option.some.injEq, Prod.mk.injEq] at h
                    obtain ⟨h1, h2⟩ := h
                    subst h1
                    subst h2
                    exact ⟨hst, hres⟩
                | some c =>
                    obtain ⟨cd, cb⟩ := c
                    cases cb with
                    | none =>
                        dsimp only at h
                        have hsteq : st' = st := by
                          by_cases hcnd :
                              ((if cd = true then sadd [] "default" else []) ≠ [])
                          · rw [if_pos hcnd] at h
                            exact (congrArg Prod.fst (Option.some.inj h)).symm
                          · rw [if_neg hcnd] at h
                            exact (congrArg Prod.fst (Option.some.inj h)).symm
                        subst hsteq
                        rcases ite_pair_some h with hr2 | hr2 <;> subst hr2 <;>
                          exact ⟨hst, hres⟩
                    | some nb =>
                        cases nb with
                        | named elems =>
                            dsimp only at h
                            have hsteq : st' = st := by
                              by_cases hcnd :
                                  ((elems.foldl (fun acc e => sadd acc (e.1.getD e.2))
                                    (if cd = true then sadd [] "default" else [])) ≠ [])
                              · rw [if_pos hcnd] at h
                                exact (congrArg Prod.fst (Option.some.inj h)).symm
                              · rw [if_neg hcnd] at h
                                exact (congrArg Prod.fst (Option.some.inj h)).symm
                            subst hsteq
                            rcases ite_pair_some h with hr2 | hr2 <;> subst hr2 <;>
                              exact ⟨hst, hres⟩
                        | namespaceB =>
                            dsimp only at h
                            cases hg : getFileExports env n st
                                (resolveImportPath env cur spec) with
                            | none =>
                                rw [hg] at h
                                simp at h
                            | some pr =>
                                obtain ⟨st1, te⟩ := pr
                                rw [hg] at h
                                have hgg := ihG st (resolveImportPath env cur spec)
                                  st1 te hst hg
                                dsimp only at h
                                have hsteq : st' = st1 := by
                                  rcases h.symm.trans rfl with h'
                                  by_cases hcnd : ((match te with
                                      | some t =>
                                          let s2 := sunion
                                            (if cd = true then sadd [] "default" else [])
                                            t.commonExport
                                          if t.defaultExport.isSome = true then
                                            sadd s2 "default" else s2
                                      | none =>
                                          if cd = true then sadd [] "default" else []) ≠ [])
                                  · rw [if_pos hcnd] at h
                                    exact (congrArg Prod.fst (Option.some.inj h)).symm
                                  · rw [if_neg hcnd] at h
                                    exact (congrArg Prod.fst (Option.some.inj h)).symm
                                subst hsteq
                                rcases ite_pair_some h with hr2 | hr2 <;> subst hr2 <;>
                                  exact ⟨hgg.1, hres⟩
              · rw [if_neg hloc] at h
                simp only [Option.some.injEq, Prod.mk.injEq] at h
                obtain ⟨h1, h2⟩ := h
                subst h1
                subst h2
                exact ⟨hst, hres⟩
        | exportDecl specOpt clause =>
            simp only [handleNode] at h
            cases specOpt with
            | none =>
                dsimp only at h
                cases clause with
                | none =>
                    simp only [Option.some.injEq, Prod.mk.injEq] at h
                    obtain ⟨h1, h2⟩ := h
                    subst h1
                    subst h2
                    exact ⟨hst, hres⟩
                | some ec =>
                    cases ec with
                    | named elems =>
                        dsimp only at h
                        simp only [Option.some.injEq, Prod.mk.injEq] at h
                        obtain ⟨h1, h2⟩ := h
                        subst h1
                        subst h2
                        refine ⟨hst, ?_⟩
                        intro hm
                        rcases (foldl_sadd_f_mem (fun e => e.2) elems
                            r.commonExport "default").mp hm with hm' | ⟨e, he, hx⟩
                        · exact hres hm'
                        · have h1 := List.all_eq_true.mp hNok e he
                          rw [← hx] at h1
                          simp at h1
                    | star ns =>
                        dsimp only at h
                        simp only [Option.some.injEq, Prod.mk.injEq] at h
                        obtain ⟨h1, h2⟩ := h
                        subst h1
                        subst h2
                        exact ⟨hst, hres⟩
            | some spec =>
                dsimp only at h
                by_cases hloc : isLocalImportPath env.pathsMapping spec = true
                · rw [if_pos hloc] at h
                  cases clause with
                  | some ec =>
                      cases ec with
                      | named elems =>
                          dsimp only at h
                          simp only [Option.some.injEq, Prod.mk.injEq] at h
                          obtain ⟨h1, h2⟩ := h
                          subst h1
                          subst h2
                          refine ⟨hst, ?_⟩
                          intro hm
                          rcases sunion_mem.mp hm with hm' | hm'
                          · rcases mem_commonExport_ite hm' with h0 | h0
                            · exact hres h0
                            · exact hres h0
                          · rcases (foldl_sadd_f_mem (fun e => e.2) elems []
                                "default").mp hm' with h0 | ⟨e, he, hx⟩
                            · exact absurd h0 (by simp)
                            · have h1 := List.all_eq_true.mp hNok e he
                              rw [← hx] at h1
                              simp at h1
                      | star ns =>
                          dsimp only at h
                          cases hg : getFileExports env n st
                              (resolveImportPath env cur spec) with
                          | none =>
                              rw [hg] at h
                              simp at h
                          | some pr =>
                              obtain ⟨st1, te⟩ := pr
                              rw [hg] at h
                              have hgg := ihG st (resolveImportPath env cur spec)
                                st1 te hst hg
                              cases te with
                              | none =>
                                  dsimp only at h
                                  simp only [Option.some.injEq, Prod.mk.injEq] at h
                                  obtain ⟨h1, h2⟩ := h
                                  subst h1
                                  subst h2
                                  exact ⟨hgg.1, hres⟩
                              | some t =>
                                  dsimp only at h
                                  simp only [Option.some.injEq, Prod.mk.injEq] at h
                                  obtain ⟨h1, h2⟩ := h
                                  subst h1
                                  subst h2
                                  refine ⟨hgg.1, ?_⟩
                                  intro hm
                                  rcases sunion_mem.mp hm with hm' | hm'
                                  · rcases mem_commonExport_ite hm' with h0 | h0
                                    · exact hres h0
                                    · exact hres h0
                                  · rcases sadd_mem.mp hm' with h0 | h0
                                    · exact absurd h0 (by simp)
                                    · rw [← h0] at hNok
                                      simp [nodeOK] at hNok
                  | none =>
                      dsimp only at h
                      cases hg : getFileExports env n st
                          (resolveImportPath env cur spec) with
                      | none =>
                          rw [hg] at h
                          simp at h
                      | some pr =>
                          obtain ⟨st1, te⟩ := pr
                          rw [hg] at h
                          have hgg := ihG st (resolveImportPath env cur spec)
                            st1 te hst hg
                          cases te with
                          | none =>
                              dsimp only at h
                              simp only [Option.some.injEq, Prod.mk.injEq] at h
                              obtain ⟨h1, h2⟩ := h
                              subst h1
                              subst h2
                              exact ⟨hgg.1, hres⟩
                          | some t =>
                              dsimp only at h
                              simp only [Option.some.injEq, Prod.mk.injEq] at h
                              obtain ⟨h1, h2⟩ := h
                              subst h1
                              subst h2
                              refine ⟨hgg.1, ?_⟩
                              intro hm
                              rcases sunion_mem.mp hm with hm' | hm'
                              · rcases mem_commonExport_ite hm' with h0 | h0
                                · exact hres h0
                                · exact hres h0
                              · rcases sunion_mem.mp hm' with h0 | h0
                                · exact absurd h0 (by simp)
                                · exact hgg.2 t rfl h0
                · rw [if_neg hloc] at h
                  simp only [Option.some.injEq, Prod.mk.injEq] at h
                  obtain ⟨h1, h2⟩ := h
                  subst h1
                  subst h2
                  exact ⟨hst, hres⟩
      · intro st spec r cur st' r' hst hres h
        simp only [handleFullImport] at h
        by_cases hsty : isStyleFile spec = true
        · rw [if_pos hsty] at h
          cases hrs : resolveStylePath env cur spec with
          | some sp =>
              rw [hrs] at h
              simp only [Option.some.injEq, Prod.mk.injEq] at h
              obtain ⟨h1, h2⟩ := h
              subst h1
              subst h2
              exact ⟨hst, hres⟩
          | none =>
              rw [hrs] at h
              simp only [Option.some.injEq, Prod.mk.injEq] at h
              obtain ⟨h1, h2⟩ := h
              subst h1
              subst h2
              exact ⟨hst, hres⟩
        · rw [if_neg hsty] at h
          by_cases hloc : isLocalImportPath env.pathsMapping spec = true
          · rw [if_pos hloc] at h
            cases hg : getFileExports env n st (resolveImportPath env cur spec) with
            | none =>
                rw [hg] at h
                simp at h
            | some pr =>
                obtain ⟨st1, te⟩ := pr
                rw [hg] at h
                have hgg := ihG st (resolveImportPath env cur spec) st1 te hst hg
                dsimp only at h
                have hsteq : st' = st1 := by
                  by_cases hcnd : ((match te with
                      | some t =>
                          let s1 := sunion [] t.commonExport
                          if t.defaultExport.isSome = true then sadd s1 "default"
                          else s1
                      | none => ([] : List String)) ≠ [])
                  · rw [if_pos hcnd] at h
                    exact (congrArg Prod.fst (Option.some.inj h)).symm
                  · rw [if_neg hcnd] at h
                    exact (congrArg Prod.fst (Option.some.inj h)).symm
                subst hsteq
                rcases ite_pair_some h with hr2 | hr2 <;> subst hr2 <;>
                  exact ⟨hgg.1, hres⟩
          · rw [if_neg hloc] at h
            simp only [Option.some.injEq, Prod.mk.injEq] at h
            obtain ⟨h1, h2⟩ := h
            subst h1
            subst h2
            exact ⟨hst, hres⟩

/-- Claim C2 (amended): after a file's extraction pass completes, its
`commonExport` does not contain the sentinel `default`, provided no tree
in the file system explicitly exports the name `default` (via an export
clause element, a namespace re-export named `default`, or a declaration
binding `default`) and every previously cached result already satisfies
the property.  Without that proviso the claim fails: see the
counterexample, where `export { x as default }` lands `default` in
`commonExport`. -/
theorem c2_amended_no_default_in_commonExport (env : Env) (fuel : Nat)
    (st : Engine) (p : String) (st' : Engine) (r : Result)
    (henv : envOK env) (hst : stOK st)
    (h : analyzeFile env fuel st p = some (st', some r)) :
    "default" ∉ r.commonExport :=
  ((extraction_no_default env henv fuel).1 st p st' (some r) hst h).2 r rfl

/-- Witness for C2 (amended) at a concrete benign file
(`export const x`). -/
theorem c2_amended_no_default_in_commonExport_witness :
    "default" ∉ rStarB.commonExport :=
  c2_amended_no_default_in_commonExport
    ⟨⟨[("/b.ts", astExportConstX)], []⟩, []⟩ 4 engine0 "/b.ts"
    ⟨[], [("/b.ts", rStarB)], ["/b.ts"], ["/b.ts"]⟩ rStarB
    (by decide) (by decide) rfl

/-! ## Claims C5 (amended) and C10 -/

theorem keysLeft_pos {g : List (String × Result)} {v : List String} {fp : String}
    (hk : fp ∈ g.map Prod.fst) (hv : fp ∉ v) : 1 ≤ keysLeft g v := by
  have := keysLeft_sadd_lt hk hv
  omega

/-- Every origin returned by the tracer is either the file it was asked
about or the target of some import edge carrying the traced symbol. -/
theorem traceMem (g : List (String × Result)) (s : String) :
    ∀ n v fp x, keysLeft g v ≤ n → x ∈ traceSymbolSource g fp s v →
      x = fp ∨ ∃ p r e, (p, r) ∈ g ∧ e ∈ r.importM ∧ e.1 = x ∧
        e.2.contains s = true := by
  intro n
  induction n with
  | zero =>
      intro v fp x h0 hx
      rw [traceSymbolSource_unfold] at hx
      by_cases hv : fp ∈ v
      · rw [if_pos hv] at hx
        exact absurd hx (List.not_mem_nil x)
      · rw [if_neg hv] at hx
        cases hl : List.lookup fp g with
        | none =>
            rw [hl] at hx
            dsimp only at hx
            rw [sadd_nil] at hx
            exact Or.inl (List.mem_singleton.mp hx)
        | some info =>
            have h1 := keysLeft_pos (lookup_mem_keys hl) hv
            omega
  | succ n ihn =>
      intro v fp x h0 hx
      rw [traceSymbolSource_unfold] at hx
      by_cases hv : fp ∈ v
      · rw [if_pos hv] at hx
        exact absurd hx (List.not_mem_nil x)
      · rw [if_neg hv] at hx
        cases hl : List.lookup fp g with
        | none =>
            rw [hl] at hx
            dsimp only at hx
            rw [sadd_nil] at hx
            exact Or.inl (List.mem_singleton.mp hx)
        | some info =>
            rw [hl] at hx
            dsimp only at hx
            by_cases hex : (if s = "default" then info.defaultExport.isSome
                else info.commonExport.contains s) = true
            · rw [if_pos hex] at hx
              have hchar := traceLoop_char g s (sadd v fp) info.importM [] false
              have hkb : keysLeft g (sadd v fp) ≤ n := by
                have := keysLeft_sadd_lt (lookup_mem_keys hl) hv
                omega
              by_cases hfnd :
                  (traceLoop g s (sadd v fp) info.importM [] false).2 = true
              · rw [if_pos hfnd] at hx
                rcases (hchar.2 x).mp hx with h0' | ⟨e, he, hc, hx'⟩
                · exact absurd h0' (List.not_mem_nil x)
                · rcases ihn (sadd v fp) e.1 x hkb hx' with h1 | hdeep
                  · exact Or.inr ⟨fp, info, e, lookup_pair_mem hl, he, h1.symm, hc⟩
                  · exact Or.inr hdeep
              · rw [if_neg hfnd] at hx
                rcases sadd_mem.mp hx with hx' | rfl
                · rcases (hchar.2 x).mp hx' with h0' | ⟨e, he, hc, hx''⟩
                  · exact absurd h0' (List.not_mem_nil x)
                  · rcases ihn (sadd v fp) e.1 x hkb hx'' with h1 | hdeep
                    · exact Or.inr ⟨fp, info, e, lookup_pair_mem hl, he, h1.symm, hc⟩
                    · exact Or.inr hdeep
                · exact Or.inl rfl
            · rw [if_neg hex] at hx
              exact absurd hx (List.not_mem_nil x)

/-- A trace launched by the closure computation: starting edge target and
symbol taken from some graph file's import ledger. -/
def launched (g : List (String × Result)) (ip s : String) : Prop :=
  ∃ p r e, (p, r) ∈ g ∧ e ∈ r.importM ∧ e.1 = ip ∧ e.2.contains s = true

/-- Membership in some launched trace's origin set. -/
def srcProp (g : List (String × Result)) (x : String) : Prop :=
  ∃ ip s, launched g ip s ∧ x ∈ traceSymbolSource g ip s []

/-- Every final dependency collected by `findAllFinalDependencies` comes
from a launched trace; the four conjuncts follow its loop structure. -/
theorem findAll_sources (g : List (String × Result)) :
    ∀ fuel,
      (∀ fp st st', findAllDeps g fuel fp st = some st' →
        ∀ x ∈ st'.1, x ∈ st.1 ∨ srcProp g x) ∧
      (∀ es st st', faEntries g fuel es st = some st' →
        (∀ e ∈ es, ∃ p r, (p, r) ∈ g ∧ e ∈ r.importM) →
        ∀ x ∈ st'.1, x ∈ st.1 ∨ srcProp g x) ∧
      (∀ ip syms st st', faSyms g fuel ip syms st = some st' →
        (∀ s ∈ syms, launched g ip s) →
        ∀ x ∈ st'.1, x ∈ st.1 ∨ srcProp g x) ∧
      (∀ srcs st st', faSrcs g fuel srcs st = some st' →
        (∀ y ∈ srcs, srcProp g y) →
        ∀ x ∈ st'.1, x ∈ st.1 ∨ srcProp g x) := by
  intro fuel
  induction fuel with
  | zero =>
      refine ⟨?_, ?_, ?_, ?_⟩
      · intro fp st st' h
        simp [findAllDeps] at h
      · intro es st st' h
        simp [faEntries] at h
      · intro ip syms st st' h
        simp [faSyms] at h
      · intro srcs st st' h
        simp [faSrcs] at h
  | succ n ih =>
      obtain ⟨ihD, ihE, ihS, ihR⟩ := ih
      refine ⟨?_, ?_, ?_, ?_⟩
      · intro fp st st' h
        obtain ⟨fd, vis⟩ := st
        simp only [findAllDeps] at h
        by_cases hv : fp ∈ vis
        · rw [if_pos hv] at h
          have := Option.some.inj h
          subst this
          intro x hx
          exact Or.inl hx
        · rw [if_neg hv] at h
          cases hl : List.lookup fp g with
          | none =>
              rw [hl] at h
              dsimp only at h
              have := Option.some.inj h
              subst this
              intro x hx
              exact Or.inl hx
          | some info =>
              rw [hl] at h
              dsimp only at h
              intro x hx
              exact ihE info.importM (fd, sadd vis fp) st' h
                (fun e he => ⟨fp, info, lookup_pair_mem hl, he⟩) x hx
      · intro es st st' h hcond
        cases es with
        | nil =>
            simp only [faEntries] at h
            have := Option.some.inj h
            subst this
            intro x hx
            exact Or.inl hx
        | cons e rest =>
            obtain ⟨ip, syms⟩ := e
            simp only [faEntries] at h
            cases hs : faSyms g n ip syms st with
            | none =>
                rw [hs] at h
                simp at h
            | some st1 =>
                rw [hs] at h
                intro x hx
                rcases ihE rest st1 st' h
                    (fun e he => hcond e (List.mem_cons_of_mem _ he)) x hx with
                  h0 | h0
                · have hlaunch : ∀ s ∈ syms, launched g ip s := by
                    intro s hsm
                    obtain ⟨p, r, hpr, hmem⟩ :=
                      hcond (ip, syms) (List.mem_cons_self _ _)
                    exact ⟨p, r, (ip, syms), hpr, hmem, rfl,
                      List.elem_eq_true_of_mem hsm⟩
                  rcases ihS ip syms st st1 hs hlaunch x h0 with h1 | h1
                  · exact Or.inl h1
                  · exact Or.inr h1
                · exact Or.inr h0
      · intro ip syms st st' h hcond
        cases syms with
        | nil =>
            simp only [faSyms] at h
            have := Option.some.inj h
            subst this
            intro x hx
            exact Or.inl hx
        | cons s rest =>
            simp only [faSyms] at h
            cases hr : faSrcs g n (traceSymbolSource g ip s []) st with
            | none =>
                rw [hr] at h
                simp at h
            | some st1 =>
                rw [hr] at h
                intro x hx
                rcases ihS ip rest st1 st' h
                    (fun s' hs' => hcond s' (List.mem_cons_of_mem _ hs')) x hx with
                  h0 | h0
                · rcases ihR (traceSymbolSource g ip s []) st st1 hr
                      (fun y hy => ⟨ip, s, hcond s (List.mem_cons_self _ _), hy⟩)
                      x h0 with h1 | h1
                  · exact Or.inl h1
                  · exact Or.inr h1
                · exact Or.inr h0
      · intro srcs st st' h hcond
        cases srcs with
        | nil =>
            simp only [faSrcs] at h
            have := Option.some.inj h
            subst this
            intro x hx
            exact Or.inl hx
        | cons src rest =>
            obtain ⟨fd, vis⟩ := st
            simp only [faSrcs] at h
            cases hd : findAllDeps g n src (sadd fd src, vis) with
            | none =>
                rw [hd] at h
                simp at h
            | some st1 =>
                rw [hd] at h
                intro x hx
                rcases ihR rest st1 st' h
                    (fun y hy => hcond y (List.mem_cons_of_mem _ hy)) x hx with
                  h0 | h0
                · rcases ihD src (sadd fd src, vis) st1 hd x h0 with h1 | h1
                  · rcases sadd_mem.mp h1 with h2 | rfl
                    · exact Or.inl h2
                    · exact Or.inr (hcond _ (List.mem_cons_self _ _))
                  · exact Or.inr h1
                · exact Or.inr h0

/-- Claim C5 (amended): the queried file's own identity is never a member
of its own query result provided no graph file imports from it and no
graph file lists it as a style import; without these provisos the claim
fails (see the counterexample, where a dependency re-exports the queried
file's own symbol). -/
theorem c5_amended_no_self_without_inedge (env : Env) (fr fa fq : Nat)
    (st : Engine) (f : String) (r0 : Result) (stq : Engine) (res : List String)
    (hres : resolveFilePath env.fs f = some f)
    (hin : List.lookup f st.depsGraph = some r0)
    (hnokey : ∀ pr ∈ st.depsGraph, ∀ e ∈ pr.2.importM, e.1 ≠ f)
    (hnostyle : ∀ pr ∈ st.depsGraph, f ∉ pr.2.styleImports)
    (hq : query env fr fa fq st f = some (stq, res)) :
    f ∉ res := by
  unfold query at hq
  rw [hres] at hq
  simp only [hin, Option.isSome_some, if_true] at hq
  cases hqp : queryPure st.depsGraph fq f with
  | none =>
      rw [hqp] at hq
      simp at hq
  | some res0 =>
      rw [hqp] at hq
      simp only [Option.some.injEq, Prod.mk.injEq] at hq
      obtain ⟨h1, h2⟩ := hq
      subst h2
      unfold queryPure at hqp
      cases hfd : findAllDeps st.depsGraph fq f ([], []) with
      | none =>
          rw [hfd] at hqp
          simp at hqp
      | some fdvis =>
          obtain ⟨fds, vis⟩ := fdvis
          rw [hfd] at hqp
          dsimp only at hqp
          have hqp' := Option.some.inj hqp
          subst hqp'
          intro hmem
          rcases sunion_mem.mp hmem with hf | hf
          · rcases (findAll_sources st.depsGraph fq).1 f ([], []) (fds, vis) hfd
                f hf with h0 | h0
            · exact absurd h0 (List.not_mem_nil f)
            · obtain ⟨ip, s, ⟨p, r, e, hpr, he, hip, hcs⟩, htr⟩ := h0
              rcases traceMem st.depsGraph s (keysLeft st.depsGraph []) [] ip f
                  (le_refl _) htr with h1 | ⟨p', r', e', hpr', he', he1, hcs'⟩
              · exact hnokey (p, r) hpr e he (hip.trans h1.symm)
              · exact hnokey (p', r') hpr' e' he' he1
          · rcases (styleFold_mem st.depsGraph fds [] f).mp hf with
              h0 | ⟨d, hd, r', hr', hst'⟩
            · exact absurd h0 (List.not_mem_nil f)
            · exact hnostyle (d, r') (lookup_pair_mem hr') hst'

/-- Witness for C5 (amended) at a one-file graph with no in-edges. -/
theorem c5_amended_no_self_without_inedge_witness :
    "/a.ts" ∉ ([] : List String) :=
  c5_amended_no_self_without_inedge ⟨⟨[("/a.ts", [])], []⟩, []⟩ 3 3 5
    ⟨[("/a.ts", ⟨[], none, [], []⟩)], [], [], []⟩ "/a.ts" ⟨[], none, [], []⟩
    ⟨[("/a.ts", ⟨[], none, [], []⟩)], [], [], []⟩ []
    rfl rfl (by decide) (by decide) rfl

theorem mapAdd_fresh :
    ∀ (m : List (String × List String)) (k : String),
      k ∉ m.map Prod.fst → (k, ([] : List String)) ∈ mapAdd m k [] := by
  intro m k
  induction m with
  | nil =>
      intro _
      simp [mapAdd]
  | cons x rest ih =>
      intro h
      obtain ⟨k', v⟩ := x
      simp only [List.map_cons, List.mem_cons] at h
      push_neg at h
      have hne : ¬ k' = k := fun he => h.1 he.symm
      simp only [mapAdd, if_neg hne]
      exact List.mem_cons_of_mem _ (ih h.2)

/-- Claim C10: a local non-style side-effect import is recorded as a
ledger edge with an empty symbol set, and such edges are inert in
the closure: a file reachable only through empty-symbol edges (and not a
style import of any graph file) never appears in the query result,
because the closure iterates `(edge, symbol)` pairs and an edge with no
symbols launches no trace. -/
theorem c10_side_effect_edges_inert (env : Env) (fuel : Nat) (st : Engine)
    (spec cur : String) (r : Result)
    (g : List (String × Result)) (fq : Nat) (t f : String) (res : List String)
    (h1 : isStyleFile spec = false)
    (h2 : isLocalImportPath env.pathsMapping spec = true)
    (h4 : resolveImportPath env cur spec ∉ r.importM.map Prod.fst)
    (hempty : ∀ pr ∈ g, ∀ e ∈ pr.2.importM, e.1 = t → e.2 = [])
    (hnostyle : ∀ pr ∈ g, t ∉ pr.2.styleImports)
    (hq : queryPure g fq f = some res) :
    (handleNode env (fuel + 1) st (.importDecl spec none) r cur =
      some (st, { r with importM := mapAdd r.importM (resolveImportPath env cur spec) [] }) ∧
      (resolveImportPath env cur spec, ([] : List String)) ∈
        mapAdd r.importM (resolveImportPath env cur spec) []) ∧
    t ∉ res := by
  refine ⟨⟨?_, mapAdd_fresh _ _ h4⟩, ?_⟩
  · simp only [handleNode, h1, h2]
    simp
  · unfold queryPure at hq
    cases hfd : findAllDeps g fq f ([], []) with
    | none =>
        rw [hfd] at hq
        simp at hq
    | some fdvis =>
        obtain ⟨fds, vis⟩ := fdvis
        rw [hfd] at hq
        dsimp only at hq
        have hq' := Option.some.inj hq
        subst hq'
        intro hmem
        rcases sunion_mem.mp hmem with hf | hf
        · rcases (findAll_sources g fq).1 f ([], []) (fds, vis) hfd t hf with
            h0 | h0
          · exact absurd h0 (List.not_mem_nil t)
          · obtain ⟨ip, s, ⟨p, rr, e, hpr, he, hip, hcs⟩, htr⟩ := h0
            rcases traceMem g s (keysLeft g []) [] ip t (le_refl _) htr with
              ht1 | ⟨p', r', e', hpr', he', he1, hcs'⟩
            · have he2 : e.2 = [] :=
                hempty (p, rr) hpr e he (hip.trans ht1.symm)
              rw [he2] at hcs
              simp at hcs
            · have he2 : e'.2 = [] := hempty (p', r') hpr' e' he' he1
              rw [he2] at hcs'
              simp at hcs'
        · rcases (styleFold_mem g fds [] t).mp hf with
            h0 | ⟨d, hd, r', hr', hst'⟩
          · exact absurd h0 (List.not_mem_nil t)
          · exact hnostyle (d, r') (lookup_pair_mem hr') hst'

/-- Witness for C10 at a concrete side-effect import and one-edge graph. -/
theorem c10_side_effect_edges_inert_witness :
    (handleNode ⟨⟨[], []⟩, []⟩ 3 engine0 (.importDecl "./t" none) emptyResult
        "/a.ts" =
      some (engine0, { emptyResult with importM := mapAdd emptyResult.importM (resolveImportPath ⟨⟨[], []⟩, []⟩ "/a.ts" "./t") [] }) ∧
      (resolveImportPath ⟨⟨[], []⟩, []⟩ "/a.ts" "./t", ([] : List String)) ∈
        mapAdd emptyResult.importM
          (resolveImportPath ⟨⟨[], []⟩, []⟩ "/a.ts" "./t") []) ∧
    "/t" ∉ (["/a.ts"] : List String) :=
  c10_side_effect_edges_inert ⟨⟨[], []⟩, []⟩ 2 engine0 "./t" "/a.ts" emptyResult
    [("/f.ts", ⟨[("/t", []), ("/a.ts", ["x"])], none, [], []⟩),
     ("/a.ts", ⟨[], none, ["x"], []⟩)] 9 "/t" "/f.ts" ["/a.ts"]
    rfl rfl (by decide) (by decide) (by decide) rfl
